import Mathlib

/-!
# A shallow embedding of the eva scheduling core

This file embeds the scheduling core of the eva task planner:

* `src/time_segment.rs` — recurring time segments (`inverse`, `with_start`,
  `generate_ranges`);
* `src/scheduling/schedule_tree.rs` — the interval tree with
  `schedule_exact`, `schedule_close_before`, `schedule_close_after`,
  `unschedule` and the side index (`data_map`);
* `src/scheduling/mod.rs` — the two placement strategies
  (`schedule_according_to_importance`, `schedule_according_to_myrjam`),
  the per-segment dispatcher `schedule_within_segment` and the merging
  dispatcher `Schedule::schedule`.

Modelling conventions:

* Instants (`DateTime<Utc>`) and durations (`chrono::Duration`) are both
  embedded as `Int` (think: nanoseconds).  Rust's `/` on integers is
  truncating division, which is `Int.tdiv` in Lean.  Half-open ranges
  `a..b` are pairs `(a, b) : Int × Int`.
* `Rc<D>` values are embedded as a pair `(allocation id, value)`.  Rust's
  `PartialEq` for `Rc<T>` (with `T : Eq`) first compares pointers and only
  then values; the allocation id plays the role of the pointer.  Strong
  counts are not tracked; the `Rc::try_unwrap(..).expect(..)` calls in the
  source can only fail when a leaf's allocation is still referenced from
  the side index under a different key, which the side-index discipline
  prevents.
* Rust panics that the claims are about (the entry assertions of
  `schedule_close_before` / `schedule_close_after`, the `update_map`
  double-insert panic, and the `unreachable!`/`expect` calls of the tree)
  are modelled as `Except.error msg` at the tree level and as an explicit
  `Outcome.crash msg` at the strategy level, keeping them distinct from
  the value-level `enum Error` of the source.
* The unbounded `while changed` loop of the importance strategy's second
  phase is embedded with explicit fuel; running out of fuel yields the
  distinguished outcome `Outcome.crash phase2FuelMsg`, and the
  termination claim is settled by proving that outcome unreachable.
-/

namespace Eva

/-- Half-open range `start..stop` over instants, as in Rust's `Range<DateTime<Utc>>`. -/
abbrev TRange := Int × Int

/-- A task as the strategies see it (`Task` trait of `scheduling/mod.rs`):
`deadline`, `duration`, `importance`, plus the displayable `content` which makes
tasks distinguishable values (structural equality, like `#[derive(PartialEq)]`). -/
structure Task where
  content : String
  deadline : Int
  duration : Int
  importance : Nat
  deriving DecidableEq, Repr

/-- `enum Item<TaskT> { Task(Rc<TaskT>), Nothing }` of `scheduling/mod.rs`. -/
inductive Item where
  | task (t : Task)
  | nothing
  deriving DecidableEq, Repr

/-- The hand-written `PartialEq for Item`: two tasks compare by task equality and
`Nothing` never equals anything, not even itself. -/
def itemEq : Item → Item → Bool
  | .task t, .task u => t = u
  | _, _ => false

/-- An `Rc<Item>`: allocation id paired with the value. -/
abbrev RcItem := Nat × Item

/-- `PartialEq for Rc<Item>`: pointer equality first (std's `RcEqIdent`
specialisation, enabled by the lying `Eq for Item` impl), then value equality. -/
def rcEq (a b : RcItem) : Bool := a.1 = b.1 || itemEq a.2 b.2

/-! ## Time segments (`src/time_segment.rs`) -/

/-- `UnnamedTimeSegment { ranges, start, period }`. `ranges` is assumed (but not
enforced) to be in order. -/
structure UnnamedTimeSegment where
  ranges : List TRange
  start : Int
  period : Int
  deriving DecidableEq, Repr

namespace UnnamedTimeSegment

/-- The middle loop of `TimeSegment::inverse`: for each adjacent pair of ranges,
emit the gap between them when it is non-empty
(`for i in 0..self.ranges().len() - 1 { ... }`). -/
def gapsBetween : List TRange → List TRange
  | r1 :: r2 :: rest =>
    (if 0 < r2.1 - r1.2 then [(r1.2, r2.1)] else []) ++ gapsBetween (r2 :: rest)
  | _ => []

/-- `TimeSegment::inverse`: the segment made of all time the given segment does
not cover, computed by emitting the gap before the first range, the gaps between
adjacent ranges and the gap after the last range, dropping empty gaps; the empty
segment inverts to the full period. -/
def inverse (seg : UnnamedTimeSegment) : UnnamedTimeSegment :=
  match seg.ranges with
  | [] => { ranges := [(seg.start, seg.start + seg.period)]
            start := seg.start, period := seg.period }
  | r0 :: rest =>
    let firstGap := if 0 < r0.1 - seg.start then [(seg.start, r0.1)] else []
    let lastR := (r0 :: rest).getLast (by simp)
    let lastGap :=
      if 0 < seg.start + seg.period - lastR.2 then [(lastR.2, seg.start + seg.period)] else []
    { ranges := firstGap ++ gapsBetween (r0 :: rest) ++ lastGap
      start := seg.start, period := seg.period }

/-- Stable insertion into a sorted list: the element goes before the first entry
for which `le` fails.  Together with `stableSortBy` this is extensionally the
stable sort used by Rust's `sort_by_key` / itertools' `sorted_by_key`. -/
def insertSorted (le : α → α → Bool) (x : α) : List α → List α
  | [] => [x]
  | y :: ys => if le x y then x :: y :: ys else y :: insertSorted le x ys

/-- Stable sort by a boolean `le` relation (insertion sort). -/
def stableSortBy (le : α → α → Bool) : List α → List α
  | [] => []
  | x :: xs => insertSorted le x (stableSortBy le xs)

/-- The quotient taken in `with_start`'s `shift` closure: Rust `/` is truncating
division, and for negative differences the quotient is decremented once. -/
def shiftQuotient (diff period : Int) : Int :=
  if diff < 0 then Int.tdiv diff period - 1 else Int.tdiv diff period

/-- `TimeSegment::with_start`: shift every range by a whole number of periods
towards the new start, split ranges that straddle the new period boundary, and
sort the result by range start. -/
def withStart (seg : UnnamedTimeSegment) (start : Int) : UnnamedTimeSegment :=
  let shift : Int → Int := fun datetime =>
    datetime - shiftQuotient (datetime - start) seg.period * seg.period
  let shifted := seg.ranges.map fun r =>
    let s := shift r.1
    (s, s + (r.2 - r.1))
  let sorted1 := stableSortBy (fun a b => decide (a.1 ≤ b.1)) shifted
  let split := sorted1.flatMap fun r =>
    if r.2 ≤ start + seg.period then [r]
    else [(r.1, start + seg.period), (start, r.2 - seg.period)]
  { ranges := stableSortBy (fun a b => decide (a.1 ≤ b.1)) split
    start := start, period := seg.period }

/-- The inner `for mut range in &mut period_ranges` loop of `generate_ranges`.
The accumulator is kept in reverse so that mutating `all_ranges.last_mut()` is a
head update.  Returns the (partially advanced) range list together with the new
accumulator; a `break` leaves the current range and the remainder untouched. -/
def generateInner (period endT : Int) : List TRange → List TRange → List TRange × List TRange
  | [], accRev => ([], accRev)
  | r :: rest, accRev =>
    if endT < r.1 then
      -- if range.start > end { break; }
      (r :: rest, accRev)
    else
      match accRev with
      | last :: accTail =>
        if last.2 = r.1 then
          -- coalesce: last.end = range.end (note: not truncated), then advance
          let p := generateInner period endT rest ((last.1, r.2) :: accTail)
          ((r.1 + period, r.2 + period) :: p.1, p.2)
        else if endT < r.2 then
          -- truncate and break (range is not advanced)
          (r :: rest, (r.1, endT) :: last :: accTail)
        else
          let p := generateInner period endT rest ((r.1, r.2) :: last :: accTail)
          ((r.1 + period, r.2 + period) :: p.1, p.2)
      | [] =>
        if endT < r.2 then
          (r :: rest, [(r.1, endT)])
        else
          let p := generateInner period endT rest [(r.1, r.2)]
          ((r.1 + period, r.2 + period) :: p.1, p.2)

/-- The outer `while period_start < end` loop of `generate_ranges`, with fuel.
The source loop always terminates when `period > 0`; the wrapper below passes
enough fuel for that case, and the fuel-exhaustion branch (returning what has
been accumulated) is only reachable for non-positive periods, where the source
would not terminate at all. -/
def generateOuter (period endT : Int) : Nat → Int → List TRange → List TRange → List TRange
  | 0, _, _, accRev => accRev.reverse
  | fuel + 1, periodStart, periodRanges, accRev =>
    if periodStart < endT then
      let (pr', acc') := generateInner period endT periodRanges accRev
      generateOuter period endT fuel (periodStart + period) pr' acc'
    else accRev.reverse

/-- `TimeSegment::generate_ranges(start, end)`: all time ranges the segment
covers between `start` and `end`, generated period by period after aligning the
segment to `start` via `with_start`. -/
def generateRanges (seg : UnnamedTimeSegment) (start endT : Int) : List TRange :=
  generateOuter seg.period endT ((endT - start).toNat / seg.period.toNat + 1) start
    (seg.withStart start).ranges []

end UnnamedTimeSegment

/-! ## The schedule tree (`src/scheduling/schedule_tree.rs`) -/

/-- `enum Node<T, D>`: a leaf holds a scheduled entry `[start, stop)` with its
payload; an intermediate node holds the free range between its children. -/
inductive Node where
  | leaf (start stop : Int) (data : RcItem)
  | intermediate (freeStart freeStop : Int) (left right : Node)
  deriving DecidableEq, Repr

namespace Node

/-- `Node::find_scope`: the span covered by all descendants. -/
def findScope : Node → Int × Int
  | .leaf s e _ => (s, e)
  | .intermediate _ _ l r => ((findScope l).1, (findScope r).2)

/-- The in-order sequence of leaf entries (the tree's `iter`). -/
def entries : Node → List (Int × Int × RcItem)
  | .leaf s e d => [(s, e, d)]
  | .intermediate _ _ l r => entries l ++ entries r

/-- `unchecked_insert`: replace `right` by an intermediate whose left child is
the new leaf `[start, stop)` and whose free range is `stop..free.end`; the
caller's free range shrinks to `free.start..start`.  The source's two
assertions (`free.start <= start`, `end <= free.end`) hold at every call site
by the guard checked just before; see the guards in `insert`, `insertBefore`
and `insertAfter`. -/
def uncheckedInsert (start stop : Int) (data : RcItem) (right : Node) (free : Int × Int) :
    Node × (Int × Int) :=
  (.intermediate stop free.2 (.leaf start stop data) right, (free.1, start))

/-- `Node::insert`: exact insertion of `[start, stop)` into a free range that
fully contains it.  Returns the placed start and the updated node. -/
def insert : Node → Int → Int → RcItem → Option (Int × Node)
  | .leaf _ _ _, _, _, _ => none
  | .intermediate fs fe l r, start, stop, data =>
    if stop ≤ fs then
      (insert l start stop data).map fun p => (p.1, .intermediate fs fe p.2 r)
    else if fe ≤ start then
      (insert r start stop data).map fun p => (p.1, .intermediate fs fe l p.2)
    else if fs ≤ start ∧ stop ≤ fe then
      let (r', free') := uncheckedInsert start stop data r (fs, fe)
      some (start, .intermediate free'.1 free'.2 l r')
    else none

/-- `Node::insert_before`: place `[end'-duration, end')` as close before `stop`
as possible, where `end' = min(stop, free.end)`, preferring the right subtree
when the target end lies beyond this node's free range, and never going further
left once `min_start` is at or before the free range's start (for an absent
`min_start` the source likewise stops: `min_start.map_or(true, ..)`). -/
def insertBefore : Node → Int → Int → Option Int → RcItem → Option (Int × Node)
  | .leaf _ _ _, _, _, _, _ => none
  | .intermediate fs fe l r, stop, dur, minStart, data =>
    match (if fe < stop then insertBefore r stop dur minStart data else none) with
    | some (s, r') => some (s, .intermediate fs fe l r')
    | none =>
      let stop' := min stop fe
      if fs ≤ stop' - dur ∧ minStart.all (fun m => decide (m ≤ stop' - dur)) then
        let (r', free') := uncheckedInsert (stop' - dur) stop' data r (fs, fe)
        some (stop' - dur, .intermediate free'.1 free'.2 l r')
      else if minStart.all (fun m => decide (fs ≤ m)) then none
      else (insertBefore l stop dur minStart data).map fun p => (p.1, .intermediate fs fe p.2 r)

/-- `Node::insert_after`: mirror image of `insertBefore`, placing
`[start', start'+duration)` as close after `start` as possible with
`start' = max(start, free.start)`. -/
def insertAfter : Node → Int → Int → Option Int → RcItem → Option (Int × Node)
  | .leaf _ _ _, _, _, _, _ => none
  | .intermediate fs fe l r, start, dur, maxEnd, data =>
    match (if start < fs then insertAfter l start dur maxEnd data else none) with
    | some (s, l') => some (s, .intermediate fs fe l' r)
    | none =>
      let start' := max start fs
      if start' + dur ≤ fe ∧ maxEnd.all (fun m => decide (start' + dur ≤ m)) then
        let (r', free') := uncheckedInsert start' (start' + dur) data r (fs, fe)
        some (start', .intermediate free'.1 free'.2 l r')
      else if maxEnd.all (fun m => decide (m ≤ fe)) then none
      else (insertAfter r start dur maxEnd data).map fun p => (p.1, .intermediate fs fe l p.2)

/-- `Node::unschedule(start, data)`: descend towards the leaf recorded at
`start`; when the child on that side is the matching leaf, promote the other
child in place of this node; when it is an intermediate node, recurse and
repair this node's free boundary from the returned child scope.  Returns the
removed entry, the new scope of this node, and the replacement node.  The
source panics when called on a leaf (`"Internal error: `unschedule` called on a
leaf node"`); that arm is unreachable both there and here, because
`ScheduleTree::unschedule` only calls it on an intermediate root and the
recursion only enters intermediate children. -/
def unscheduleGo : Node → Int → Item → Option ((Int × Int × RcItem) × (Int × Int) × Node)
  | .leaf _ _ _, _, _ => none
  | .intermediate fs fe l r, start, d =>
    if start < fs then
      match l with
      | .leaf ls le ld =>
        if start = ls ∧ itemEq d ld.2 then some ((ls, le, ld), r.findScope, r) else none
      | .intermediate lfs lfe ll lr =>
        (unscheduleGo (.intermediate lfs lfe ll lr) start d).map fun (entry, scope, l') =>
          (entry, (scope.1, r.findScope.2), .intermediate scope.2 fe l' r)
    else if fe ≤ start then
      match r with
      | .leaf rs re rd =>
        if start = rs ∧ itemEq d rd.2 then some ((rs, re, rd), l.findScope, l) else none
      | .intermediate rfs rfe rl rr =>
        (unscheduleGo (.intermediate rfs rfe rl rr) start d).map fun (entry, scope, r') =>
          (entry, (l.findScope.1, scope.2), .intermediate fs scope.1 l r')
    else none

end Node

/-- A removed or iterated entry (`struct Entry<T, D>`), with the payload
unwrapped to its `Item` value as `Rc::try_unwrap` does. -/
structure Entry where
  start : Int
  stop : Int
  data : Item
  deriving DecidableEq, Repr

/-- `ScheduleTree { root, scope, data_map }`, plus the allocation counter that
stands in for `Rc::new`'s fresh pointers. -/
structure ScheduleTree where
  root : Option Node
  scope : Option (Int × Int)
  dataMap : List (RcItem × Int)
  nextId : Nat
  deriving DecidableEq, Repr

namespace ScheduleTree

/-- `ScheduleTree::new()`. -/
def new : ScheduleTree := { root := none, scope := none, dataMap := [], nextId := 0 }

/-- `ScheduleTree::is_empty`. -/
def isEmpty (t : ScheduleTree) : Bool := t.root.isNone

/-- The tree's in-order leaf entries (`ScheduleTree::iter`). -/
def iterEntries (t : ScheduleTree) : List (Int × Int × RcItem) :=
  match t.root with
  | none => []
  | some n => n.entries

/-- `HashMap::insert(data, start)` on the side index: the key comparison is
`Rc<Item>` equality (`rcEq`); on a hit the stored key is kept and the value
replaced, and the old value is returned.  The hash-map bucket order is
irrelevant because the tree never holds two `rcEq`-equal live keys. -/
def mapInsert : List (RcItem × Int) → RcItem → Int → Option Int × List (RcItem × Int)
  | [], k, v => (none, [(k, v)])
  | (k', v') :: rest, k, v =>
    if rcEq k' k then (some v', (k', v) :: rest)
    else
      let (old, rest') := mapInsert rest k v
      (old, (k', v') :: rest')

/-- `HashMap::remove(data)` with `data : &Item`: comparison through
`Borrow<Item>`, i.e. plain `Item` equality. -/
def mapRemove : List (RcItem × Int) → Item → Option Int × List (RcItem × Int)
  | [], _ => (none, [])
  | (k', v') :: rest, d =>
    if itemEq k'.2 d then (some v', rest)
    else
      let (old, rest') := mapRemove rest d
      (old, (k', v') :: rest')

/-- `HashMap::get(data)` with `data : &Item` (`when_scheduled`). -/
def mapGet : List (RcItem × Int) → Item → Option Int
  | [], _ => none
  | (k', v') :: rest, d => if itemEq k'.2 d then some v' else mapGet rest d

/-- `ScheduleTree::when_scheduled`. -/
def whenScheduled (t : ScheduleTree) (d : Item) : Option Int := mapGet t.dataMap d

/-- The panic message of `update_map` when the same payload is entered twice. -/
def doubleEntryMsg : String := "Internal error: same data is being entered twice"

/-- `ScheduleTree::update_map`: record `data → start`; the source panics when
the map already held a live entry for this payload. -/
def updateMap (t : ScheduleTree) (start : Int) (data : RcItem) : Except String ScheduleTree :=
  match mapInsert t.dataMap data start with
  | (some _, _) => .error doubleEntryMsg
  | (none, m') => .ok { t with dataMap := m' }

/-- `try_schedule_trivial_cases`: empty tree, entirely before the scope, or
entirely after the scope.  The error arm models the source's `unreachable!()`
for a root/scope mismatch. -/
def tryScheduleTrivialCases (t : ScheduleTree) (start stop : Int) (data : RcItem) :
    Except String (Option Int × ScheduleTree) :=
  match t.root, t.scope with
  | none, none =>
    .ok (some start, { t with root := some (.leaf start stop data), scope := some (start, stop) })
  | some root, some (ss, se) =>
    if stop ≤ ss then
      .ok (some start,
        { t with root := some (.intermediate stop ss (.leaf start stop data) root)
                 scope := some (start, se) })
    else if se ≤ start then
      .ok (some start,
        { t with root := some (.intermediate se start root (.leaf start stop data))
                 scope := some (ss, stop) })
    else .ok (none, t)
  | _, _ => .error "Internal error: root and scope out of sync"

/-- `schedule_exact_`: trivial cases, then the recursive exact insert. -/
def scheduleExactAux (t : ScheduleTree) (start dur : Int) (data : RcItem) :
    Except String (Option Int × ScheduleTree) :=
  let stop := start + dur
  match t.tryScheduleTrivialCases start stop data with
  | .error m => .error m
  | .ok (some s, t') => .ok (some s, t')
  | .ok (none, t') =>
    match t'.root with
    | none => .error "Internal error: root could not be taken as mut ref"
    | some root =>
      match root.insert start stop data with
      | some (s, root') => .ok (some s, { t' with root := some root' })
      | none => .ok (none, t')

/-- `schedule_exact`: allocate the payload, try to place it, and on success
record it in the side index. -/
def scheduleExact (t : ScheduleTree) (start dur : Int) (d : Item) :
    Except String (Bool × ScheduleTree) :=
  let data : RcItem := (t.nextId, d)
  let t := { t with nextId := t.nextId + 1 }
  match t.scheduleExactAux start dur data with
  | .error m => .error m
  | .ok (some s, t') =>
    match t'.updateMap s data with
    | .error m => .error m
    | .ok t'' => .ok (true, t'')
  | .ok (none, t') => .ok (false, t')

/-- The entry assertion of `schedule_close_before`. -/
def closeBeforeAssertMsg : String :=
  "assertion failed: min_start + duration <= end (schedule_close_before)"

/-- `schedule_close_before_`: assert the precondition, try the trivial cases
with `[end-duration, end)`, then the recursive walk, and as a last resort
prepend `[scope.start-duration, scope.start)` before the current scope when
`min_start` allows. -/
def scheduleCloseBeforeAux (t : ScheduleTree) (stop dur : Int) (minStart : Option Int)
    (data : RcItem) : Except String (Option Int × ScheduleTree) :=
  if ¬ (minStart.all fun m => decide (m + dur ≤ stop)) then .error closeBeforeAssertMsg
  else
    let optimalStart := stop - dur
    match t.tryScheduleTrivialCases optimalStart stop data with
    | .error m => .error m
    | .ok (some s, t') => .ok (some s, t')
    | .ok (none, t') =>
      match t'.root, t'.scope with
      | some root, some (ss, se) =>
        match root.insertBefore stop dur minStart data with
        | some (s, root') => .ok (some s, { t' with root := some root' })
        | none =>
          if minStart.all fun m => decide (m ≤ ss - dur) then
            .ok (some (ss - dur),
              { t' with root := some (.intermediate ss ss (.leaf (ss - dur) ss data) root)
                        scope := some (ss - dur, se) })
          else .ok (none, t')
      | _, _ => .error "Internal error: root could not be taken as mut ref"

/-- `schedule_close_before` (public wrapper). -/
def scheduleCloseBefore (t : ScheduleTree) (stop dur : Int) (minStart : Option Int) (d : Item) :
    Except String (Bool × ScheduleTree) :=
  let data : RcItem := (t.nextId, d)
  let t := { t with nextId := t.nextId + 1 }
  match t.scheduleCloseBeforeAux stop dur minStart data with
  | .error m => .error m
  | .ok (some s, t') =>
    match t'.updateMap s data with
    | .error m => .error m
    | .ok t'' => .ok (true, t'')
  | .ok (none, t') => .ok (false, t')

/-- The entry assertion of `schedule_close_after`. -/
def closeAfterAssertMsg : String :=
  "assertion failed: start + duration <= max_end (schedule_close_after)"

/-- `schedule_close_after_`: mirror image of `scheduleCloseBeforeAux`; the last
resort appends `[scope.end, scope.end+duration)` after the current scope when
`max_end` allows. -/
def scheduleCloseAfterAux (t : ScheduleTree) (start dur : Int) (maxEnd : Option Int)
    (data : RcItem) : Except String (Option Int × ScheduleTree) :=
  if ¬ (maxEnd.all fun m => decide (start + dur ≤ m)) then .error closeAfterAssertMsg
  else
    let optimalEnd := start + dur
    match t.tryScheduleTrivialCases start optimalEnd data with
    | .error m => .error m
    | .ok (some s, t') => .ok (some s, t')
    | .ok (none, t') =>
      match t'.root, t'.scope with
      | some root, some (ss, se) =>
        match root.insertAfter start dur maxEnd data with
        | some (s, root') => .ok (some s, { t' with root := some root' })
        | none =>
          if maxEnd.all fun m => decide (se + dur ≤ m) then
            .ok (some se,
              { t' with root := some (.intermediate se se root (.leaf se (se + dur) data))
                        scope := some (ss, se + dur) })
          else .ok (none, t')
      | _, _ => .error "Internal error: root could not be taken as mut ref"

/-- `schedule_close_after` (public wrapper). -/
def scheduleCloseAfter (t : ScheduleTree) (start dur : Int) (maxEnd : Option Int) (d : Item) :
    Except String (Bool × ScheduleTree) :=
  let data : RcItem := (t.nextId, d)
  let t := { t with nextId := t.nextId + 1 }
  match t.scheduleCloseAfterAux start dur maxEnd data with
  | .error m => .error m
  | .ok (some s, t') =>
    match t'.updateMap s data with
    | .error m => .error m
    | .ok t'' => .ok (true, t'')
  | .ok (none, t') => .ok (false, t')

/-- `ScheduleTree::unschedule`: remove the payload's recorded start from the
side index, then splice the corresponding leaf out of the tree.  Faithful to
the source, `self.root.take()` leaves the root empty in the unmatched arm
where the side index had no entry (the surrounding strategies only call
`unschedule` on payloads they know to be live, and turn a `None` result into an
internal error).  A single-leaf root is removed without comparing it against
the requested payload, again as in the source. -/
def unschedule (t : ScheduleTree) (d : Item) : Option Entry × ScheduleTree :=
  let (w, m') := mapRemove t.dataMap d
  let t := { t with dataMap := m' }
  match t.root, w with
  | some root, some start =>
    match root with
    | .leaf s e dd => (some ⟨s, e, dd.2⟩, { t with root := none, scope := none })
    | .intermediate fs fe l r =>
      match Node.unscheduleGo (.intermediate fs fe l r) start d with
      | some (entry, scope, root') =>
        (some ⟨entry.1, entry.2.1, entry.2.2.2⟩,
          { t with root := some root', scope := some scope })
      | none => (none, t)
  | none, _ => (none, t)
  | some _, none => (none, { t with root := none })

end ScheduleTree

/-! ## Strategies and dispatcher (`src/scheduling/mod.rs`) -/

/-- `enum Error<TaskT>` (`DeadlineMissed`, `NotEnoughTime`, `Internal`). -/
inductive SchedError where
  | deadlineMissed (task : Task) (tense : String)
  | notEnoughTime (task : Task)
  | internal (msg : String)
  deriving DecidableEq, Repr

/-- The result of running scheduling code: a value, a returned `Error`, or a
Rust panic (assertion failure, `unreachable!`, `update_map` double entry, or
the fuel marker standing in for a diverging loop). -/
inductive Outcome (α : Type) where
  | ok (a : α)
  | err (e : SchedError)
  | crash (msg : String)
  deriving DecidableEq, Repr

/-- The first phase shared by both strategies: walk the (already sorted) task
list, reject tasks whose deadline cannot be met from `start`, and pack each
task as close before its deadline as possible (`schedule_close_before` with
`min_start = Some(start)`); a placement failure is `NotEnoughTime`. -/
def phase1 (start : Int) : List Task → ScheduleTree → Outcome ScheduleTree
  | [], t => .ok t
  | task :: rest, t =>
    if task.deadline < start + task.duration then
      .err (.deadlineMissed task (if task.deadline < start then "missed" else "will miss"))
    else
      match t.scheduleCloseBefore task.deadline task.duration (some start) (.task task) with
      | .error m => .crash m
      | .ok (false, _) => .err (.notEnoughTime task)
      | .ok (true, t') => phase1 start rest t'

/-- One pass of the importance strategy's second phase: for each task in
most-important-first order, unschedule it and re-place it as close after
`start` as possible, bounded by its old end; stop the pass (`break`) as soon as
one task's start changed. -/
def importancePass (start : Int) : List Task → ScheduleTree → Outcome (Bool × ScheduleTree)
  | [], t => .ok (false, t)
  | task :: rest, t =>
    match t.unschedule (.task task) with
    | (none, _) => .err (.internal "I couldn't unschedule a task")
    | (some entry, t') =>
      match t'.scheduleCloseAfter start task.duration (some entry.stop) entry.data with
      | .error m => .crash m
      | .ok (false, _) => .err (.internal "I couldn't reschedule a task")
      | .ok (true, t'') =>
        match t''.whenScheduled (.task task) with
        | none => .err (.internal "I couldn't find a task that was just scheduled")
        | some newStart =>
          if entry.start ≠ newStart then .ok (true, t'')
          else importancePass start rest t''

/-- The crash marker for exhausted fuel in the phase-2 loop. -/
def phase2FuelMsg : String := "phase 2 fixed-point loop did not terminate within its fuel"

/-- The `while changed` loop of the importance strategy's second phase, with
explicit fuel standing in for the source's unbounded loop. -/
def phase2Importance (start : Int) (tasksRev : List Task) :
    Nat → ScheduleTree → Outcome ScheduleTree
  | 0, _ => .crash phase2FuelMsg
  | fuel + 1, t =>
    match importancePass start tasksRev t with
    | .ok (false, t') => .ok t'
    | .ok (true, t') => phase2Importance start tasksRev fuel t'
    | .err e => .err e
    | .crash m => .crash m

/-- The sum of `(leaf start - base)` over all leaves, as a natural number: the
termination measure justifying the fuel given to `phase2Importance`. -/
def Node.startsMeasure (base : Int) : Node → Nat
  | .leaf s _ _ => (s - base).toNat
  | .intermediate _ _ l r => l.startsMeasure base + r.startsMeasure base

/-- `startsMeasure` lifted to the tree. -/
def ScheduleTree.startsMeasure (t : ScheduleTree) (base : Int) : Nat :=
  match t.root with
  | none => 0
  | some n => n.startsMeasure base

/-- The sort key comparison of the importance strategy:
`(importance, start.signed_duration_since(deadline))`, lexicographically. -/
def importanceLe (start : Int) (a b : Task) : Bool :=
  decide (a.importance < b.importance ∨
    (a.importance = b.importance ∧ start - a.deadline ≤ start - b.deadline))

/-- `schedule_according_to_importance`: sort by `(importance asc, urgency)`,
backload every task against its deadline (phase 1), then repeatedly pull tasks
towards `start` in most-important-first order until a full pass moves nothing.
The fuel is one more than the measure `Σ (leaf start − start)`; the termination
theorem shows this suffices. -/
def scheduleAccordingToImportance (t : ScheduleTree) (start : Int) (tasks : List Task) :
    Outcome ScheduleTree :=
  let sorted := UnnamedTimeSegment.stableSortBy (importanceLe start) tasks
  match phase1 start sorted t with
  | .ok t1 =>
    if t1.isEmpty then .ok t1
    else phase2Importance start sorted.reverse (t1.startsMeasure start + 1) t1
  | .err e => .err e
  | .crash m => .crash m

/-- The second phase of the urgency strategy: a single pass over a snapshot of
the tree's entries in chronological order, compacting each task towards
`start`. -/
def myrjamPass (start : Int) : List (Int × Int × RcItem) → ScheduleTree → Outcome ScheduleTree
  | [], t => .ok t
  | (_, _, dd) :: rest, t =>
    match dd.2 with
    | .nothing => myrjamPass start rest t
    | .task task =>
      match t.unschedule dd.2 with
      | (none, _) => .err (.internal "I couldn't unschedule a task")
      | (some entry, t') =>
        match t'.scheduleCloseAfter start task.duration (some entry.stop) entry.data with
        | .error m => .crash m
        | .ok (false, _) => .err (.internal "I couldn't reschedule a task")
        | .ok (true, t'') => myrjamPass start rest t''

/-- The sort key comparison of the urgency strategy: importance only
(`tasks.sort_by_key(|task| task.importance())`). -/
def myrjamLe (a b : Task) : Bool := decide (a.importance ≤ b.importance)

/-- `schedule_according_to_myrjam` (the urgency strategy): sort stably by
importance only, backload (phase 1), then compact in one chronological pass. -/
def scheduleAccordingToMyrjam (t : ScheduleTree) (start : Int) (tasks : List Task) :
    Outcome ScheduleTree :=
  let sorted := UnnamedTimeSegment.stableSortBy myrjamLe tasks
  match phase1 start sorted t with
  | .ok t1 => myrjamPass start t1.iterEntries t1
  | .err e => .err e
  | .crash m => .crash m

/-- `enum SchedulingStrategy { Importance, Urgency }` from `configuration.rs`. -/
inductive SchedulingStrategy where
  | importance
  | urgency
  deriving DecidableEq, Repr

/-- `struct Scheduled { task, when }`. -/
structure Scheduled where
  task : Task
  when : Int
  deriving DecidableEq, Repr

/-- Strategy dispatch, as in `schedule_within_segment`'s `match strategy`. -/
def runStrategy (strategy : SchedulingStrategy) (t : ScheduleTree) (start : Int)
    (tasks : List Task) : Outcome ScheduleTree :=
  match strategy with
  | .importance => scheduleAccordingToImportance t start tasks
  | .urgency => scheduleAccordingToMyrjam t start tasks

/-- The sentinel pre-insertion loop of `schedule_within_segment`: each
forbidden range is inserted with `schedule_exact` as an `Item::Nothing`
occupant, and the boolean success flag is discarded, exactly as in the source
(`tree.schedule_exact(...)` as a statement). -/
def primeTree : List TRange → ScheduleTree → Except String ScheduleTree
  | [], t => .ok t
  | r :: rest, t =>
    match t.scheduleExact r.1 (r.2 - r.1) .nothing with
    | .error m => .error m
    | .ok (_, t') => primeTree rest t'

/-- `Schedule::from_tree`: project the tree's chronological entries to
`Scheduled` values, dropping the `Nothing` sentinels.  (The consuming iterator
also drops entries from the side index, which is discarded here; its
`Rc::try_unwrap` cannot fail because each live allocation is referenced exactly
by its leaf and its own side-index entry.) -/
def fromTree (t : ScheduleTree) : List Scheduled :=
  t.iterEntries.filterMap fun e =>
    match e.2.2.2 with
    | .task tk => some ⟨tk, e.1⟩
    | .nothing => none

/-- `Schedule::schedule_within_segment`: prime a fresh tree with the segment's
inverse ranges between `start` and the last deadline, run the chosen strategy,
and project the result. -/
def scheduleWithinSegment (start : Int) (tasks : List Task) (segment : UnnamedTimeSegment)
    (strategy : SchedulingStrategy) : Outcome (List Scheduled) :=
  if tasks = [] then .ok []
  else
    match (tasks.map Task.deadline).max? with
    | none => .err (.internal "last deadline not found")
    | some lastDeadline =>
      match primeTree (segment.inverse.generateRanges start lastDeadline) ScheduleTree.new with
      | .error m => .crash m
      | .ok tree =>
        match runStrategy strategy tree start tasks with
        | .ok t' => .ok (fromTree t')
        | .err e => .err e
        | .crash m => .crash m

/-- `itertools::merge` on schedules: take from the left while it is strictly
earlier (the `PartialOrd` of `Scheduled` answers `None` on equal instants, so
`le` is `when <` and ties go to the right-hand schedule). -/
def mergeSchedules : List Scheduled → List Scheduled → List Scheduled
  | [], ys => ys
  | x :: xs, [] => x :: xs
  | x :: xs, y :: ys =>
    if x.when < y.when then x :: mergeSchedules xs (y :: ys)
    else y :: mergeSchedules (x :: xs) ys
termination_by xs ys => xs.length + ys.length

/-- The fold step of `Schedule::schedule`: keep the first error; a panic while
computing any sub-schedule aborts the whole call. -/
def combineOutcome (acc r : Outcome (List Scheduled)) : Outcome (List Scheduled) :=
  match acc, r with
  | .crash m, _ => .crash m
  | _, .crash m => .crash m
  | .err e, _ => .err e
  | _, .err e => .err e
  | .ok a, .ok b => .ok (mergeSchedules a b)

/-- `Schedule::schedule`: schedule every `(segment, tasks)` pair and merge the
sub-schedules chronologically; the fold evaluates every pair (Rust's lazy `map`
is drained by `fold`) and keeps the first error. -/
def schedule (start : Int) (pairs : List (UnnamedTimeSegment × List Task))
    (strategy : SchedulingStrategy) : Outcome (List Scheduled) :=
  (pairs.map fun p => scheduleWithinSegment start p.2 p.1 strategy).foldl combineOutcome (.ok [])

/-! ## Specification-side predicates -/

/-- The half-open intervals `[a, b)` and `[c, d)` share no point. -/
def intervalsDisjoint (a b c d : Int) : Prop := min b d ≤ max a c

/-- Every pair of distinct schedule entries occupies disjoint time intervals. -/
def pairwiseNonOverlap (l : List Scheduled) : Prop :=
  l.Pairwise fun e1 e2 =>
    intervalsDisjoint e1.when (e1.when + e1.task.duration) e2.when (e2.when + e2.task.duration)

/-- Every schedule entry starts at or after `start` and finishes by its
task's deadline. -/
def entriesWithinBounds (start : Int) (l : List Scheduled) : Prop :=
  ∀ e ∈ l, start ≤ e.when ∧ e.when + e.task.duration ≤ e.task.deadline

/-! ## Concrete instances used by witnesses and counterexamples -/

/-- A one-week "anytime" segment anchored at 0 (minutes as the unit). -/
def exAnytime : UnnamedTimeSegment := { ranges := [(0, 10080)], start := 0, period := 10080 }

/-- A one-week "never" segment anchored at 0. -/
def exNever : UnnamedTimeSegment := { ranges := [], start := 0, period := 10080 }

/-- Tasks for the C2 counterexample: `exC2b` exhausts the time before the
bad-deadline task `exC2c` is ever examined. -/
def exC2a : Task := { content := "a", deadline := 10, duration := 10, importance := 0 }

def exC2b : Task := { content := "b", deadline := 10, duration := 10, importance := 1 }

def exC2c : Task := { content := "c", deadline := -5, duration := 1, importance := 2 }

/-- The segment for the C4 counterexample: anytime with period 10. -/
def exC4seg : UnnamedTimeSegment := { ranges := [(0, 10)], start := 0, period := 10 }

/-- An ill-ordered segment (C3): its `inverse` has overlapping ranges, so the
second sentinel insertion fails. -/
def exC3seg : UnnamedTimeSegment := { ranges := [(50, 60), (10, 20)], start := 0, period := 100 }

/-- The single task scheduled against `exC3seg`. -/
def exC3task : Task := { content := "t", deadline := 100, duration := 10, importance := 0 }

/-- Equal-importance tasks of different durations for the C8 counterexample. -/
def exC8a : Task := { content := "a", deadline := 100, duration := 1, importance := 5 }

def exC8b : Task := { content := "b", deadline := 100, duration := 2, importance := 5 }

/-- The duplicated task of the C9 scenarios. -/
def exC9t : Task := { content := "dup", deadline := 100, duration := 10, importance := 5 }

/-- Two one-task segment groups whose placements collide (C1 counterexample). -/
def exC1a : Task := { content := "a", deadline := 10, duration := 10, importance := 5 }

def exC1b : Task := { content := "b", deadline := 10, duration := 10, importance := 5 }

/-- A tiny tree (a single leaf on `[5, 9)`) used to exercise the last-resort
branch of `schedule_close_before`. -/
def exTreeLeaf : ScheduleTree :=
  { root := some (.leaf 5 9 (0, .nothing)), scope := some (5, 9)
    dataMap := [((0, Item.nothing), 5)], nextId := 1 }

/-- The tree after the first (successful) sentinel insertion of the C3 run. -/
def exC3primed : ScheduleTree :=
  { root := some (.leaf 0 50 (0, Item.nothing)), scope := some (0, 50)
    dataMap := [((0, Item.nothing), 0)], nextId := 1 }

/-- A task whose deadline already passed (for the C2 witness). -/
def exC2m : Task := { content := "m", deadline := -10, duration := 5, importance := 0 }

/-- The invariant carried through `generate_ranges`' accumulator (kept in
reverse): consecutive emitted ranges never meet exactly, and every emitted
range starts at or before the window end. -/
def GenAccInv (endT : Int) (accRev : List TRange) : Prop :=
  accRev.Chain' (fun x y => y.2 ≠ x.1) ∧ ∀ r ∈ accRev, r.1 ≤ endT

/-- The complement walk underlying `inverse`: starting from the cursor `lo`,
emit the gap up to the next range start (when non-empty) and continue from that
range's end; after the last range, emit the gap up to `hi`.  For a non-empty
range list this produces exactly `inverse`'s ranges (lemma
`inverse_ranges_eq_invWalk`). -/
def invWalk (lo hi : Int) : List TRange → List TRange
  | [] => if lo < hi then [(lo, hi)] else []
  | r :: rest => (if lo < r.1 then [(lo, r.1)] else []) ++ invWalk r.2 hi rest

/-- Ranges strictly after `b`, non-empty, strictly separated (no touching), and
ending by `hi`: the tail-invariant of a normalised segment. -/
def SepIn (b hi : Int) : List TRange → Prop
  | [] => b ≤ hi
  | r :: rest => b < r.1 ∧ r.1 < r.2 ∧ SepIn r.2 hi rest

/-- A segment with normalised, pairwise non-adjacent ranges: sorted, non-empty,
strictly separated, and lying within `[start, start + period)`. -/
def SegWF (seg : UnnamedTimeSegment) : Prop :=
  match seg.ranges with
  | [] => True
  | r :: rest => seg.start ≤ r.1 ∧ r.1 < r.2 ∧ SepIn r.2 (seg.start + seg.period) rest

/-- The *anytime* segment: a single range covering the whole period. -/
def anytimeSeg (start period : Int) : UnnamedTimeSegment :=
  { ranges := [(start, start + period)], start := start, period := period }

/-- The *never* segment: no ranges at all. -/
def neverSeg (start period : Int) : UnnamedTimeSegment :=
  { ranges := [], start := start, period := period }

/-- A small normalised segment for the C7 witness. -/
def exC7seg : UnnamedTimeSegment := { ranges := [(34, 39), (88, 90)], start := 0, period := 100 }

/-- Distinct sort keys for the given strategy: the importance strategy keys on
`(importance, start - deadline)`, the urgency strategy on importance alone. -/
def distinctKeys (strat : SchedulingStrategy) (start : Int) (tasks : List Task) : Prop :=
  match strat with
  | .importance => tasks.Pairwise fun a b =>
      (a.importance, start - a.deadline) ≠ (b.importance, start - b.deadline)
  | .urgency => tasks.Pairwise fun a b => a.importance ≠ b.importance

/-- Well-formedness of a tree node under a payload predicate `P start stop
item`: every leaf is a non-empty interval whose payload satisfies `P`, and
every intermediate node's free range separates the span of its left child from
the span of its right child. -/
def Node.wfP (P : Int → Int → Item → Prop) : Node → Prop
  | .leaf s e d => s ≤ e ∧ P s e d.2
  | .intermediate fs fe l r =>
    wfP P l ∧ wfP P r ∧ (l.findScope).2 ≤ fs ∧ fs ≤ fe ∧ fe ≤ (r.findScope).1

/-- Tree-level well-formedness: when a root is present it is well-formed and
the recorded scope is its actual span. -/
def ScheduleTree.Wf (P : Int → Int → Item → Prop) (t : ScheduleTree) : Prop :=
  match t.root with
  | none => True
  | some n => n.wfP P ∧ t.scope = some n.findScope

/-- Every side-index key's payload is carried by some live leaf. -/
def ScheduleTree.MapLive (t : ScheduleTree) : Prop :=
  ∀ kv ∈ t.dataMap, ∃ ent ∈ t.iterEntries, ent.2.2.2 = kv.1.2

/-- No two side-index keys hold `PartialEq`-equal items (`update_map` panics
before this could happen). -/
def ScheduleTree.MapUnique (t : ScheduleTree) : Prop :=
  t.dataMap.Pairwise fun a b => itemEq a.1.2 b.1.2 = false

/-- The combined tree invariant maintained by the scheduling operations. -/
def ScheduleTree.Inv (P : Int → Int → Item → Prop) (t : ScheduleTree) : Prop :=
  t.Wf P ∧ t.MapLive ∧ t.MapUnique

/-- The payload predicate the strategies maintain from earliest-start `base`:
every task leaf starts no earlier than `base`, spans exactly its task's
duration, and ends by its task's deadline.  Sentinel leaves are
unconstrained. -/
def PayloadP (base : Int) : Int → Int → Item → Prop :=
  fun s e d => ∀ tk, d = .task tk → base ≤ s ∧ e = s + tk.duration ∧ e ≤ tk.deadline

/-! # Theorems -/

/-! ## C6 — the last resort of `schedule_close_before` -/

/-- **C6.** If `schedule_close_before_` passes its entry assertion but can place
the item neither through the trivial cases nor through the recursive walk, then
it places `[scope.start − duration, scope.start)` exactly when `min_start` is
absent or at most `scope.start − duration`, installing a new root intermediate
whose left child is the new leaf, whose right child is the old root and whose
free range is the degenerate `[scope.start, scope.start)`, and extending the
scope leftwards; otherwise the call fails. -/
theorem c6_close_before_last_resort
    (t : ScheduleTree) (stop dur : Int) (minStart : Option Int) (data : RcItem)
    (root : Node) (ss se : Int)
    (hassert : (minStart.all fun m => decide (m + dur ≤ stop)) = true)
    (hroot : t.root = some root) (hscope : t.scope = some (ss, se))
    (htriv : t.tryScheduleTrivialCases (stop - dur) stop data = .ok (none, t))
    (hwalk : root.insertBefore stop dur minStart data = none) :
    t.scheduleCloseBeforeAux stop dur minStart data =
      if minStart.all fun m => decide (m ≤ ss - dur) then
        .ok (some (ss - dur),
          { t with root := some (.intermediate ss ss (.leaf (ss - dur) ss data) root)
                   scope := some (ss - dur, se) })
      else .ok (none, t) := by
  unfold ScheduleTree.scheduleCloseBeforeAux
  rw [if_neg (by simp [hassert])]
  simp only [htriv, hroot, hscope, hwalk]

/-- Witness for C6: on a single-leaf tree on `[5, 9)`, closing `[7, 9)` before 9
with `min_start = 0` falls through to the last resort and prepends `[3, 5)`. -/
theorem c6_close_before_last_resort_witness :
    exTreeLeaf.scheduleCloseBeforeAux 9 2 (some 0) (1, .nothing) =
      .ok (some 3,
        { exTreeLeaf with
            root := some (.intermediate 5 5 (.leaf 3 5 (1, .nothing)) (.leaf 5 9 (0, .nothing)))
            scope := some (3, 9) }) := by
  have h := c6_close_before_last_resort exTreeLeaf 9 2 (some 0) (1, .nothing)
    (.leaf 5 9 (0, .nothing)) 5 9 (by decide) rfl rfl rfl rfl
  simpa using h

/-! ## C4 — `generate_ranges` bounds, coalescing and empty window -/

theorem genAccInv_inner (period endT : Int) :
    ∀ (prs accRev : List TRange), GenAccInv endT accRev →
      GenAccInv endT (UnnamedTimeSegment.generateInner period endT prs accRev).2 := by
  intro prs
  induction prs with
  | nil =>
    intro accRev h
    simpa only [UnnamedTimeSegment.generateInner] using h
  | cons r rest ih =>
    intro accRev h
    obtain ⟨hchain, hle⟩ := h
    by_cases h1 : endT < r.1
    · simp only [UnnamedTimeSegment.generateInner, if_pos h1]
      exact ⟨hchain, hle⟩
    · rcases accRev with _ | ⟨last, accTail⟩
      · by_cases h2 : endT < r.2
        · simp only [UnnamedTimeSegment.generateInner, if_neg h1, if_pos h2]
          refine ⟨List.chain'_singleton _, ?_⟩
          intro r' hr'
          rw [List.mem_singleton] at hr'
          subst hr'
          exact le_of_not_lt h1
        · simp only [UnnamedTimeSegment.generateInner, if_neg h1, if_neg h2]
          exact ih [(r.1, r.2)] ⟨List.chain'_singleton _, by
            intro r' hr'
            rw [List.mem_singleton] at hr'
            subst hr'
            exact le_of_not_lt h1⟩
      · by_cases h2 : last.2 = r.1
        · simp only [UnnamedTimeSegment.generateInner, if_neg h1, if_pos h2]
          refine ih ((last.1, r.2) :: accTail) ⟨?_, ?_⟩
          · cases accTail with
            | nil => exact List.chain'_singleton _
            | cons a2 rest2 =>
              rw [List.chain'_cons] at hchain ⊢
              exact ⟨hchain.1, hchain.2⟩
          · intro r' hr'
            rcases List.mem_cons.mp hr' with h3 | h3
            · subst h3
              exact hle last (by simp)
            · exact hle r' (List.mem_cons_of_mem _ h3)
        · by_cases h3 : endT < r.2
          · simp only [UnnamedTimeSegment.generateInner, if_neg h1, if_neg h2, if_pos h3]
            refine ⟨List.chain'_cons.mpr ⟨fun hc => h2 hc, hchain⟩, ?_⟩
            intro r' hr'
            rcases List.mem_cons.mp hr' with h4 | h4
            · subst h4
              exact le_of_not_lt h1
            · exact hle r' h4
          · simp only [UnnamedTimeSegment.generateInner, if_neg h1, if_neg h2, if_neg h3]
            refine ih ((r.1, r.2) :: last :: accTail) ⟨List.chain'_cons.mpr ⟨fun hc => h2 hc, hchain⟩, ?_⟩
            intro r' hr'
            rcases List.mem_cons.mp hr' with h4 | h4
            · subst h4
              exact le_of_not_lt h1
            · exact hle r' h4

theorem genAccInv_outer (period endT : Int) :
    ∀ (fuel : Nat) (periodStart : Int) (prs accRev : List TRange), GenAccInv endT accRev →
      (UnnamedTimeSegment.generateOuter period endT fuel periodStart prs accRev).Chain'
          (fun r1 r2 => r1.2 ≠ r2.1) ∧
        ∀ r ∈ UnnamedTimeSegment.generateOuter period endT fuel periodStart prs accRev,
          r.1 ≤ endT := by
  intro fuel
  induction fuel with
  | zero =>
    intro periodStart prs accRev h
    rw [UnnamedTimeSegment.generateOuter]
    constructor
    · rw [List.chain'_reverse]
      exact h.1.imp fun {a b} hne => by simpa [flip] using hne
    · intro r hr
      exact h.2 r (by simpa using hr)
  | succ fuel ih =>
    intro periodStart prs accRev h
    rw [UnnamedTimeSegment.generateOuter]
    split
    · exact ih (periodStart + period)
        (UnnamedTimeSegment.generateInner period endT prs accRev).1
        (UnnamedTimeSegment.generateInner period endT prs accRev).2
        (genAccInv_inner period endT prs accRev h)
    · constructor
      · rw [List.chain'_reverse]
        exact h.1.imp fun {a b} hne => by simpa [flip] using hne
      · intro r hr
        exact h.2 r (by simpa using hr)

/-- **C4 (counterexample).** For the anytime segment with period 10 and window
`[0, 15)`, `generate_ranges` emits the single range `[0, 20)`, whose end lies
strictly after the window end 15: the truncation part of the claim is false. -/
theorem c4_generate_ranges_counterexample :
    exC4seg.generateRanges 0 15 = [(0, 20)] ∧ ¬ ((20 : Int) ≤ 15) := by decide

/-- **C4 (amended).** For every segment and window `[a, b)`: when `b ≤ a` the
output of `generate_ranges` is empty; adjacent emitted ranges never meet
exactly (meeting ranges are coalesced); and every emitted range *starts* at or
before `b` — but an emitted range may *end* after `b` when coalescing extended
it, and only ranges pushed without coalescing are truncated to end at `b`. -/
theorem c4_generate_ranges_amended (seg : UnnamedTimeSegment) (a b : Int) :
    (b ≤ a → seg.generateRanges a b = []) ∧
    (seg.generateRanges a b).Chain' (fun r1 r2 => r1.2 ≠ r2.1) ∧
    ∀ r ∈ seg.generateRanges a b, r.1 ≤ b := by
  refine ⟨?_, ?_⟩
  · intro hba
    unfold UnnamedTimeSegment.generateRanges
    rw [UnnamedTimeSegment.generateOuter]
    rw [if_neg (by omega)]
    rfl
  · exact genAccInv_outer seg.period b _ a (seg.withStart a).ranges []
      ⟨List.chain'_nil, by intro r hr; simp at hr⟩

/-- Witness for C4 (amended), evaluating it on the counterexample segment: the
emitted range `[0, 20)` indeed starts before 15, and the reversed window is
empty. -/
theorem c4_generate_ranges_amended_witness :
    (∀ r ∈ exC4seg.generateRanges 0 15, r.1 ≤ 15) ∧ exC4seg.generateRanges 15 0 = [] :=
  ⟨(c4_generate_ranges_amended exC4seg 0 15).2.2,
    (c4_generate_ranges_amended exC4seg 15 0).1 (by decide)⟩

/-! ## C3 — sentinel insertion failures are silently discarded -/

/-- **C3 (counterexample).** For a segment whose ranges are out of order, the
inverse has overlapping ranges `[0, 50)` and `[20, 100)`; the second sentinel
insertion fails (`schedule_exact` returns `false`), yet `schedule_within_segment`
raises no `Internal` error: it silently continues and even returns a successful
schedule placing the task at 50 — inside the forbidden range `[20, 100)`. -/
theorem c3_sentinel_failure_counterexample :
    exC3seg.inverse.generateRanges 0 100 = [(0, 50), (20, 100)] ∧
    ScheduleTree.new.scheduleExact 0 50 Item.nothing = .ok (true, exC3primed) ∧
    exC3primed.scheduleExact 20 80 Item.nothing = .ok (false, { exC3primed with nextId := 2 }) ∧
    scheduleWithinSegment 0 [exC3task] exC3seg .urgency = .ok [⟨exC3task, 50⟩] :=
  ⟨by decide, rfl, rfl, by decide⟩

/-- **C3 (amended).** A failed sentinel insertion is silently ignored:
`schedule_within_segment` discards `schedule_exact`'s boolean result, so when an
insertion fails the priming loop simply continues with the remaining ranges on
the unchanged tree, and no `Internal` error is produced from the failure. -/
theorem c3_sentinel_failure_ignored (r : TRange) (rest : List TRange) (t t' : ScheduleTree)
    (hfail : t.scheduleExact r.1 (r.2 - r.1) Item.nothing = .ok (false, t')) :
    primeTree (r :: rest) t = primeTree rest t' := by
  rw [primeTree, hfail]

/-- Witness for C3 (amended), at the failing insertion of the counterexample run. -/
theorem c3_sentinel_failure_ignored_witness :
    primeTree [(20, 100)] exC3primed = primeTree [] { exC3primed with nextId := 2 } :=
  c3_sentinel_failure_ignored (20, 100) [] exC3primed { exC3primed with nextId := 2 } rfl

/-! ## C2 — the deadline-missed policy -/

theorem phase1_deadlineMissed_inv (start : Int) :
    ∀ (l : List Task) (t : ScheduleTree) (task : Task) (tense : String),
      phase1 start l t = .err (.deadlineMissed task tense) →
      task.deadline < start + task.duration ∧
      tense = if task.deadline < start then "missed" else "will miss" := by
  intro l
  induction l with
  | nil =>
    intro t task tense h
    simp [phase1] at h
  | cons hd rest ih =>
    intro t task tense h
    rw [phase1] at h
    split at h
    · simp only [Outcome.err.injEq, SchedError.deadlineMissed.injEq] at h
      obtain ⟨h1, h2⟩ := h
      subst h1
      subst h2
      rename_i hlt
      exact ⟨hlt, rfl⟩
    · split at h
      · cases h
      · simp only [Outcome.err.injEq, reduceCtorEq] at h
      · exact ih _ task tense h

theorem phase1_ok_deadlines_met (start : Int) :
    ∀ (l : List Task) (t t' : ScheduleTree), phase1 start l t = .ok t' →
      ∀ task ∈ l, ¬ task.deadline < start + task.duration := by
  intro l
  induction l with
  | nil =>
    intro t t' _ task htask
    simp at htask
  | cons hd rest ih =>
    intro t t' h task htask
    rw [phase1] at h
    split at h
    · cases h
    · rename_i hnotlt
      split at h
      · cases h
      · cases h
      · rcases List.mem_cons.mp htask with h1 | h1
        · subst h1
          exact hnotlt
        · exact ih _ t' h task h1

theorem importancePass_err_internal (start : Int) :
    ∀ (l : List Task) (t : ScheduleTree) (e : SchedError),
      importancePass start l t = .err e → ∃ m, e = .internal m := by
  intro l
  induction l with
  | nil =>
    intro t e h
    simp [importancePass] at h
  | cons hd rest ih =>
    intro t e h
    rw [importancePass] at h
    split at h
    · simp only [Outcome.err.injEq] at h
      exact ⟨_, h.symm⟩
    · split at h
      · cases h
      · simp only [Outcome.err.injEq] at h
        exact ⟨_, h.symm⟩
      · split at h
        · simp only [Outcome.err.injEq] at h
          exact ⟨_, h.symm⟩
        · split at h
          · cases h
          · exact ih _ e h

theorem phase2Importance_err_internal (start : Int) (l : List Task) :
    ∀ (fuel : Nat) (t : ScheduleTree) (e : SchedError),
      phase2Importance start l fuel t = .err e → ∃ m, e = .internal m := by
  intro fuel
  induction fuel with
  | zero =>
    intro t e h
    simp [phase2Importance] at h
  | succ fuel ih =>
    intro t e h
    rw [phase2Importance] at h
    split at h
    · cases h
    · exact ih _ e h
    · rename_i heq
      cases h
      exact importancePass_err_internal start l _ _ heq
    · cases h

theorem myrjamPass_err_internal (start : Int) :
    ∀ (l : List (Int × Int × RcItem)) (t : ScheduleTree) (e : SchedError),
      myrjamPass start l t = .err e → ∃ m, e = .internal m := by
  intro l
  induction l with
  | nil =>
    intro t e h
    simp [myrjamPass] at h
  | cons hd rest ih =>
    intro t e h
    rw [myrjamPass] at h
    split at h
    · exact ih _ e h
    · split at h
      · simp only [Outcome.err.injEq] at h
        exact ⟨_, h.symm⟩
      · split at h
        · cases h
        · simp only [Outcome.err.injEq] at h
          exact ⟨_, h.symm⟩
        · exact ih _ e h

theorem insertSorted_perm (le : α → α → Bool) (x : α) :
    ∀ l : List α, (UnnamedTimeSegment.insertSorted le x l).Perm (x :: l) := by
  intro l
  induction l with
  | nil => simp [UnnamedTimeSegment.insertSorted]
  | cons y ys ih =>
    rw [UnnamedTimeSegment.insertSorted]
    split
    · exact List.Perm.refl _
    · exact (List.Perm.cons y ih).trans (List.Perm.swap x y ys)

theorem stableSortBy_perm (le : α → α → Bool) :
    ∀ l : List α, (UnnamedTimeSegment.stableSortBy le l).Perm l := by
  intro l
  induction l with
  | nil => simp [UnnamedTimeSegment.stableSortBy]
  | cons x xs ih =>
    rw [UnnamedTimeSegment.stableSortBy]
    exact (insertSorted_perm le x _).trans (ih.cons x)

/-- Any `DeadlineMissed` error reported by either strategy carries a task whose
deadline is indeed too early, with the claimed tense. -/
theorem runStrategy_deadlineMissed_inv (strat : SchedulingStrategy) (t : ScheduleTree)
    (start : Int) (tasks : List Task) (task : Task) (tense : String)
    (h : runStrategy strat t start tasks = .err (.deadlineMissed task tense)) :
    task.deadline < start + task.duration ∧
    tense = if task.deadline < start then "missed" else "will miss" := by
  cases strat with
  | importance =>
    rw [runStrategy, scheduleAccordingToImportance] at h
    split at h
    · split at h
      · cases h
      · obtain ⟨m, hm⟩ := phase2Importance_err_internal start _ _ _ _ h
        simp at hm
    · rename_i heq
      cases h
      exact phase1_deadlineMissed_inv start _ _ task tense heq
    · cases h
  | urgency =>
    rw [runStrategy, scheduleAccordingToMyrjam] at h
    split at h
    · obtain ⟨m, hm⟩ := myrjamPass_err_internal start _ _ _ h
      simp at hm
    · rename_i heq
      cases h
      exact phase1_deadlineMissed_inv start _ _ task tense heq
    · cases h

/-- A strategy only succeeds when every input task meets its deadline. -/
theorem runStrategy_ok_deadlines_met (strat : SchedulingStrategy) (t t' : ScheduleTree)
    (start : Int) (tasks : List Task)
    (h : runStrategy strat t start tasks = .ok t') :
    ∀ task ∈ tasks, ¬ task.deadline < start + task.duration := by
  intro task htask
  cases strat with
  | importance =>
    rw [runStrategy, scheduleAccordingToImportance] at h
    split at h
    · rename_i t1 heq
      exact phase1_ok_deadlines_met start _ _ _ heq task
        ((stableSortBy_perm _ tasks).mem_iff.mpr htask)
    · cases h
    · cases h
  | urgency =>
    rw [runStrategy, scheduleAccordingToMyrjam] at h
    split at h
    · rename_i t1 heq
      exact phase1_ok_deadlines_met start _ _ _ heq task
        ((stableSortBy_perm _ tasks).mem_iff.mpr htask)
    · cases h
    · cases h

/-- **C2 (counterexample).** With three tasks under the urgency strategy (and
likewise under importance), the bad-deadline task `exC2c` is in the input and
yet the call fails with `NotEnoughTime` for `exC2b` — not with
`DeadlineMissed` — because the failure for `exC2b` occurs before `exC2c` is
ever examined. -/
theorem c2_deadline_policy_counterexample :
    exC2c ∈ [exC2a, exC2b, exC2c] ∧ exC2c.deadline < 0 + exC2c.duration ∧
    scheduleWithinSegment 0 [exC2a, exC2b, exC2c] exAnytime .urgency =
      .err (.notEnoughTime exC2b) ∧
    scheduleWithinSegment 0 [exC2a, exC2b, exC2c] exAnytime .importance =
      .err (.notEnoughTime exC2b) :=
  ⟨by decide, by decide, by decide, by decide⟩

/-- **C2 (amended).** Under both strategies: a task whose deadline equals
`start + duration` exactly never triggers `DeadlineMissed` (every reported
`DeadlineMissed` has `deadline < start + duration`, with tense `"missed"`
exactly when `deadline < start`), and the presence of any task with
`deadline < start + duration` makes the call fail — though the reported error
may be an earlier task's `NotEnoughTime` rather than `DeadlineMissed`. -/
theorem c2_deadline_policy_amended (strat : SchedulingStrategy) (t : ScheduleTree)
    (start : Int) (tasks : List Task) :
    (∀ task tense, runStrategy strat t start tasks = .err (.deadlineMissed task tense) →
        task.deadline < start + task.duration ∧
        tense = if task.deadline < start then "missed" else "will miss") ∧
    ((∃ task ∈ tasks, task.deadline < start + task.duration) →
        ∀ t', runStrategy strat t start tasks ≠ .ok t') := by
  constructor
  · intro task tense h
    exact runStrategy_deadlineMissed_inv strat t start tasks task tense h
  · rintro ⟨task, htask, hbad⟩ t' h
    exact runStrategy_ok_deadlines_met strat t t' start tasks h task htask hbad

/-- Witness for C2 (amended): the single-task run with a passed deadline
reports `DeadlineMissed` with tense `"missed"`, and its bad deadline blocks any
successful outcome. -/
theorem c2_deadline_policy_witness :
    (exC2m.deadline < 0 + exC2m.duration ∧
      "missed" = if exC2m.deadline < (0 : Int) then "missed" else "will miss") ∧
    ∀ t', runStrategy .urgency ScheduleTree.new 0 [exC2m] ≠ .ok t' :=
  ⟨(c2_deadline_policy_amended .urgency ScheduleTree.new 0 [exC2m]).1 exC2m "missed" (by decide),
    (c2_deadline_policy_amended .urgency ScheduleTree.new 0 [exC2m]).2
      ⟨exC2m, by decide, by decide⟩⟩

/-! ## C7 — `inverse` is an involution on normalised segments -/

theorem segment_eq_of_fields {a b : UnnamedTimeSegment} (h1 : a.ranges = b.ranges)
    (h2 : a.start = b.start) (h3 : a.period = b.period) : a = b := by
  cases a
  cases b
  simp_all

theorem inverse_start (seg : UnnamedTimeSegment) : seg.inverse.start = seg.start := by
  rw [UnnamedTimeSegment.inverse.eq_def]
  split <;> rfl

theorem inverse_period (seg : UnnamedTimeSegment) : seg.inverse.period = seg.period := by
  rw [UnnamedTimeSegment.inverse.eq_def]
  split <;> rfl

theorem sepIn_chain (hi : Int) :
    ∀ (l : List TRange) (b : Int), SepIn b hi l →
      l.Chain' (fun x y => x.2 < y.1) ∧ ∀ g ∈ l, b < g.1 := by
  intro l
  induction l with
  | nil =>
    intro b _
    exact ⟨List.chain'_nil, by simp⟩
  | cons r rest ih =>
    intro b hsep
    rw [SepIn] at hsep
    obtain ⟨h1, h2, h3⟩ := hsep
    obtain ⟨hchain, hmem⟩ := ih r.2 h3
    refine ⟨List.chain'_cons'.mpr ⟨fun y hy => hmem y (List.mem_of_mem_head? hy), hchain⟩, ?_⟩
    intro g hg
    rcases List.mem_cons.mp hg with h4 | h4
    · subst h4; exact h1
    · exact h1.trans (h2.trans (hmem g h4))

theorem gapsBetween_append_lastGap (hi : Int) :
    ∀ (rest : List TRange) (r : TRange), (r :: rest).Chain' (fun x y => x.2 < y.1) →
      UnnamedTimeSegment.gapsBetween (r :: rest) ++
          (if 0 < hi - ((r :: rest).getLast (by simp)).2
            then [(((r :: rest).getLast (by simp)).2, hi)] else []) =
        invWalk r.2 hi rest := by
  intro rest
  induction rest with
  | nil =>
    intro r _
    simp only [UnnamedTimeSegment.gapsBetween, List.getLast_singleton, invWalk, sub_pos,
      List.nil_append]
  | cons r' rest' ih =>
    intro r hchain
    rw [List.chain'_cons] at hchain
    rw [UnnamedTimeSegment.gapsBetween, List.getLast_cons (by simp), invWalk]
    rw [if_pos (by omega : (0 : Int) < r'.1 - r.2), if_pos hchain.1]
    rw [List.append_assoc]
    rw [ih r' hchain.2]

theorem inverse_ranges_eq_invWalk (s p : Int) (g : TRange) (grest : List TRange)
    (hchain : (g :: grest).Chain' (fun x y => x.2 < y.1)) :
    (UnnamedTimeSegment.inverse ⟨g :: grest, s, p⟩).ranges = invWalk s (s + p) (g :: grest) := by
  show (if 0 < g.1 - s then [(s, g.1)] else []) ++
      UnnamedTimeSegment.gapsBetween (g :: grest) ++
      (if 0 < s + p - ((g :: grest).getLast (by simp)).2
        then [(((g :: grest).getLast (by simp)).2, s + p)] else []) = _
  rw [List.append_assoc, gapsBetween_append_lastGap (s + p) grest g hchain, invWalk]
  simp only [sub_pos]

theorem inverse_seg_eq_invWalk (s p : Int) (g : TRange) (grest : List TRange)
    (hchain : (g :: grest).Chain' (fun x y => x.2 < y.1)) :
    UnnamedTimeSegment.inverse ⟨g :: grest, s, p⟩ = ⟨invWalk s (s + p) (g :: grest), s, p⟩ :=
  segment_eq_of_fields (inverse_ranges_eq_invWalk s p g grest hchain)
    (inverse_start _) (inverse_period _)

theorem invWalk_sepIn_eq (hi : Int) :
    ∀ (rest : List TRange) (b : Int), SepIn b hi rest → ∀ a, a < b →
      invWalk a hi (invWalk b hi rest) = (a, b) :: rest := by
  intro rest
  induction rest with
  | nil =>
    intro b hsep a hab
    rw [SepIn] at hsep
    by_cases hb : b < hi
    · simp [invWalk, hb, hab, lt_irrefl]
    · have hb' : b = hi := le_antisymm hsep (le_of_not_lt hb)
      subst hb'
      simp [invWalk, hab, lt_irrefl]
  | cons r' rest' ih =>
    intro b hsep a hab
    rw [SepIn] at hsep
    obtain ⟨h1, h2, h3⟩ := hsep
    rw [invWalk, if_pos h1, List.singleton_append, invWalk, if_pos hab,
      ih r'.2 h3 r'.1 h2]
    rfl

theorem invWalk_chain (hi : Int) :
    ∀ (rest : List TRange) (b : Int), SepIn b hi rest →
      (invWalk b hi rest).Chain' (fun x y => x.2 < y.1) ∧
      ∀ g ∈ invWalk b hi rest, b ≤ g.1 := by
  intro rest
  induction rest with
  | nil =>
    intro b _
    rw [invWalk]
    split
    · exact ⟨List.chain'_singleton _, by simp⟩
    · exact ⟨List.chain'_nil, by simp⟩
  | cons r' rest' ih =>
    intro b hsep
    rw [SepIn] at hsep
    obtain ⟨h1, h2, h3⟩ := hsep
    obtain ⟨hchain, hmem⟩ := ih r'.2 h3
    rw [invWalk, if_pos h1, List.singleton_append]
    refine ⟨List.chain'_cons'.mpr ⟨?_, hchain⟩, ?_⟩
    · intro y hy
      exact lt_of_lt_of_le h2 (hmem y (List.mem_of_mem_head? hy))
    · intro g hg
      rcases List.mem_cons.mp hg with h4 | h4
      · subst h4; exact le_refl _
      · exact (h1.trans h2).le.trans (hmem g h4)

/-- **C7.** On segments whose normalised ranges are pairwise non-adjacent,
`inverse` is an involution, and the inverse of *anytime* is *never* and vice
versa (for any anchor and period). -/
theorem c7_inverse_involution (seg : UnnamedTimeSegment) (hwf : SegWF seg) :
    seg.inverse.inverse = seg ∧
    ∀ s p : Int, (anytimeSeg s p).inverse = neverSeg s p ∧
      (neverSeg s p).inverse = anytimeSeg s p := by
  constructor
  · obtain ⟨ranges, s, p⟩ := seg
    cases ranges with
    | nil =>
      simp [UnnamedTimeSegment.inverse, UnnamedTimeSegment.gapsBetween]
    | cons r rest =>
      obtain ⟨h0, h2, h3⟩ : s ≤ r.1 ∧ r.1 < r.2 ∧ SepIn r.2 (s + p) rest := hwf
      have hsc := sepIn_chain (s + p) rest r.2 h3
      have hchain : (r :: rest).Chain' (fun x y => x.2 < y.1) :=
        List.chain'_cons'.mpr ⟨fun y hy => hsc.2 y (List.mem_of_mem_head? hy), hsc.1⟩
      have hGprops := invWalk_chain (s + p) rest r.2 h3
      rw [inverse_seg_eq_invWalk s p r rest hchain, invWalk]
      rcases lt_or_eq_of_le h0 with hlt | heq
      · rw [if_pos hlt, List.singleton_append]
        have hchainG : ((s, r.1) :: invWalk r.2 (s + p) rest).Chain' (fun x y => x.2 < y.1) :=
          List.chain'_cons'.mpr ⟨fun y hy => lt_of_lt_of_le h2
            (hGprops.2 y (List.mem_of_mem_head? hy)), hGprops.1⟩
        rw [inverse_seg_eq_invWalk s p _ _ hchainG]
        rw [invWalk, if_neg (lt_irrefl s), List.nil_append,
          invWalk_sepIn_eq (s + p) rest r.2 h3 r.1 h2]
      · rcases hG : invWalk r.2 (s + p) rest with _ | ⟨g0, grest⟩
        · cases rest with
          | nil =>
            have h4 : ¬ r.2 < s + p := by
              intro hlt2
              rw [invWalk, if_pos hlt2] at hG
              cases hG
            rw [SepIn] at h3
            have h5 : r.2 = s + p := le_antisymm h3 (le_of_not_lt h4)
            rw [if_neg (show ¬ s < r.1 by rw [heq]; exact lt_irrefl _), List.nil_append]
            refine segment_eq_of_fields ?_ rfl rfl
            show [(s, s + p)] = [r]
            rw [← h5, heq]
          | cons r' rest' =>
            rw [SepIn] at h3
            rw [invWalk, if_pos h3.1] at hG
            cases hG
        · rw [if_neg (show ¬ s < r.1 by rw [heq]; exact lt_irrefl _), List.nil_append]
          have hchainG : (g0 :: grest).Chain' (fun x y => x.2 < y.1) := hG ▸ hGprops.1
          rw [inverse_seg_eq_invWalk s p g0 grest hchainG, ← hG,
            invWalk_sepIn_eq (s + p) rest r.2 h3 s (by rw [heq]; exact h2)]
          rw [heq]
  · intro s p
    constructor
    · simp [anytimeSeg, neverSeg, UnnamedTimeSegment.inverse, UnnamedTimeSegment.gapsBetween]
    · simp [anytimeSeg, neverSeg, UnnamedTimeSegment.inverse]

/-- Witness for C7 on a concrete normalised two-range segment. -/
theorem c7_inverse_involution_witness :
    exC7seg.inverse.inverse = exC7seg ∧ SegWF exC7seg := by
  have hwf : SegWF exC7seg := by
    show (0 : Int) ≤ 34 ∧ (34 : Int) < 39 ∧ SepIn 39 (0 + 100) [(88, 90)]
    refine ⟨by norm_num, by norm_num, ?_⟩
    show (39 : Int) < 88 ∧ (88 : Int) < 90 ∧ SepIn 90 (0 + 100) []
    refine ⟨by norm_num, by norm_num, ?_⟩
    show (90 : Int) ≤ 0 + 100
    norm_num
  exact ⟨(c7_inverse_involution exC7seg hwf).1, hwf⟩

/-! ## C8 — permutation (in)sensitivity of the strategies -/

theorem insertSorted_pairwise {α : Type} {le : α → α → Bool}
    (htrans : ∀ a b c : α, le a b = true → le b c = true → le a c = true)
    (htot : ∀ a b : α, le a b = true ∨ le b a = true) (x : α) :
    ∀ l : List α, l.Pairwise (fun a b => le a b = true) →
      (UnnamedTimeSegment.insertSorted le x l).Pairwise (fun a b => le a b = true) := by
  intro l
  induction l with
  | nil =>
    intro _
    simp [UnnamedTimeSegment.insertSorted]
  | cons y ys ih =>
    intro hp
    rw [UnnamedTimeSegment.insertSorted]
    split
    · rename_i hxy
      refine List.Pairwise.cons ?_ hp
      intro b hb
      rcases List.mem_cons.mp hb with h | h
      · subst h; exact hxy
      · exact htrans _ _ _ hxy (List.rel_of_pairwise_cons hp h)
    · rename_i hxy
      have hyx : le y x = true := (htot x y).resolve_left (by simpa using hxy)
      refine List.Pairwise.cons ?_ (ih (List.Pairwise.of_cons hp))
      intro b hb
      have hb' : b = x ∨ b ∈ ys :=
        List.mem_cons.mp ((insertSorted_perm le x ys).mem_iff.mp hb)
      rcases hb' with h | h
      · subst h; exact hyx
      · exact List.rel_of_pairwise_cons hp h

theorem stableSortBy_pairwise {α : Type} {le : α → α → Bool}
    (htrans : ∀ a b c : α, le a b = true → le b c = true → le a c = true)
    (htot : ∀ a b : α, le a b = true ∨ le b a = true) :
    ∀ l : List α,
      (UnnamedTimeSegment.stableSortBy le l).Pairwise (fun a b => le a b = true) := by
  intro l
  induction l with
  | nil => simp [UnnamedTimeSegment.stableSortBy]
  | cons x xs ih =>
    rw [UnnamedTimeSegment.stableSortBy]
    exact insertSorted_pairwise htrans htot x _ ih

theorem sorted_perm_eq {α : Type} {le : α → α → Bool} :
    ∀ l₁ l₂ : List α, l₁.Perm l₂ →
      l₁.Pairwise (fun a b => le a b = true) → l₂.Pairwise (fun a b => le a b = true) →
      (∀ a ∈ l₁, ∀ b ∈ l₁, le a b = true → le b a = true → a = b) →
      l₁ = l₂ := by
  intro l₁
  induction l₁ with
  | nil =>
    intro l₂ hperm _ _ _
    exact hperm.nil_eq
  | cons a t₁ ih =>
    intro l₂ hperm hs₁ hs₂ hanti
    cases l₂ with
    | nil => simpa using hperm.length_eq
    | cons b t₂ =>
      by_cases hab : a = b
      · subst hab
        have ht : t₁.Perm t₂ := hperm.cons_inv
        rw [ih t₂ ht hs₁.of_cons hs₂.of_cons
          fun x hx y hy => hanti x (List.mem_cons_of_mem _ hx) y (List.mem_cons_of_mem _ hy)]
      · have ha2 : a ∈ t₂ := by
          rcases List.mem_cons.mp (hperm.mem_iff.mp (List.mem_cons_self a t₁)) with h | h
          · exact absurd h hab
          · exact h
        have hb1 : b ∈ t₁ := by
          rcases List.mem_cons.mp (hperm.mem_iff.mpr (List.mem_cons_self b t₂)) with h | h
          · exact absurd h.symm hab
          · exact h
        have h1 : le a b = true := List.rel_of_pairwise_cons hs₁ hb1
        have h2 : le b a = true := List.rel_of_pairwise_cons hs₂ ha2
        exact absurd
          (hanti a (List.mem_cons_self _ _) b (List.mem_cons_of_mem _ hb1) h1 h2) hab

theorem max?_perm {l₁ l₂ : List Int} (h : l₁.Perm l₂) : l₁.max? = l₂.max? := by
  have hmax : ∀ (l l' : List Int), l.Perm l' → ∀ m, l.max? = some m → l'.max? = some m := by
    intro l l' hp m hm
    haveI : Std.Antisymm fun x1 x2 : Int => x1 ≤ x2 := by
      constructor
      intro a b h1 h2
      omega
    rw [List.max?_eq_some_iff (fun a => le_refl a) max_choice (fun a b c => max_le_iff)] at hm ⊢
    exact ⟨hp.mem_iff.mp hm.1, fun b hb => hm.2 b (hp.mem_iff.mpr hb)⟩
  cases h1 : l₁.max? with
  | none =>
    cases h2 : l₂.max? with
    | none => rfl
    | some m => rw [hmax l₂ l₁ h.symm m h2] at h1; cases h1
  | some m => exact (hmax l₁ l₂ h m h1).symm

theorem importanceLe_trans (start : Int) (a b c : Task) (h1 : importanceLe start a b = true)
    (h2 : importanceLe start b c = true) : importanceLe start a c = true := by
  simp only [importanceLe, decide_eq_true_iff] at h1 h2 ⊢
  omega

theorem importanceLe_total (start : Int) (a b : Task) :
    importanceLe start a b = true ∨ importanceLe start b a = true := by
  simp only [importanceLe, decide_eq_true_iff]
  omega

theorem importanceLe_antisymm_keys (start : Int) {a b : Task}
    (h1 : importanceLe start a b = true) (h2 : importanceLe start b a = true) :
    (a.importance, start - a.deadline) = (b.importance, start - b.deadline) := by
  simp only [importanceLe, decide_eq_true_iff] at h1 h2
  simp only [Prod.mk.injEq]
  omega

theorem myrjamLe_trans (a b c : Task) (h1 : myrjamLe a b = true) (h2 : myrjamLe b c = true) :
    myrjamLe a c = true := by
  simp only [myrjamLe, decide_eq_true_iff] at h1 h2 ⊢
  omega

theorem myrjamLe_total (a b : Task) : myrjamLe a b = true ∨ myrjamLe b a = true := by
  simp only [myrjamLe, decide_eq_true_iff]
  omega

/-- With pairwise-distinct sort keys, the importance strategy sorts any two
permuted inputs to the same list. -/
theorem sort_eq_importance (start : Int) (l₁ l₂ : List Task) (hperm : l₁.Perm l₂)
    (hkeys : l₁.Pairwise fun a b =>
      (a.importance, start - a.deadline) ≠ (b.importance, start - b.deadline)) :
    UnnamedTimeSegment.stableSortBy (importanceLe start) l₁ =
      UnnamedTimeSegment.stableSortBy (importanceLe start) l₂ := by
  refine sorted_perm_eq _ _
    ((stableSortBy_perm _ l₁).trans (hperm.trans (stableSortBy_perm _ l₂).symm))
    (stableSortBy_pairwise (importanceLe_trans start) (importanceLe_total start) l₁)
    (stableSortBy_pairwise (importanceLe_trans start) (importanceLe_total start) l₂) ?_
  intro a ha b hb h1 h2
  by_contra hne
  exact hkeys.forall (by intro x y hxy h; exact hxy h.symm)
    ((stableSortBy_perm _ l₁).mem_iff.mp ha) ((stableSortBy_perm _ l₁).mem_iff.mp hb) hne
    (importanceLe_antisymm_keys start h1 h2)

/-- With pairwise-distinct importances, the urgency strategy sorts any two
permuted inputs to the same list. -/
theorem sort_eq_myrjam (l₁ l₂ : List Task) (hperm : l₁.Perm l₂)
    (hkeys : l₁.Pairwise fun a b => a.importance ≠ b.importance) :
    UnnamedTimeSegment.stableSortBy myrjamLe l₁ =
      UnnamedTimeSegment.stableSortBy myrjamLe l₂ := by
  refine sorted_perm_eq _ _
    ((stableSortBy_perm _ l₁).trans (hperm.trans (stableSortBy_perm _ l₂).symm))
    (stableSortBy_pairwise myrjamLe_trans myrjamLe_total l₁)
    (stableSortBy_pairwise myrjamLe_trans myrjamLe_total l₂) ?_
  intro a ha b hb h1 h2
  by_contra hne
  refine hkeys.forall (by intro x y hxy h; exact hxy h.symm)
    ((stableSortBy_perm _ l₁).mem_iff.mp ha) ((stableSortBy_perm _ l₁).mem_iff.mp hb) hne ?_
  simp only [myrjamLe, decide_eq_true_iff] at h1 h2
  omega

/-- **C8 (counterexample).** Swapping two equal-importance tasks changes the
schedule under both strategies: the stable sorts keep the input order of
equal-key tasks, and the placements differ. -/
theorem c8_permutation_counterexample :
    [exC8a, exC8b].Perm [exC8b, exC8a] ∧
    scheduleWithinSegment 0 [exC8a, exC8b] exAnytime .urgency ≠
      scheduleWithinSegment 0 [exC8b, exC8a] exAnytime .urgency ∧
    scheduleWithinSegment 0 [exC8a, exC8b] exAnytime .importance ≠
      scheduleWithinSegment 0 [exC8b, exC8a] exAnytime .importance :=
  ⟨List.Perm.swap _ _ _, by decide, by decide⟩

/-- **C8 (amended).** For a fixed start instant and segment, permuting the
input task list does not change the resulting schedule *provided no two tasks
share a sort key* (importance and deadline for the importance strategy;
importance alone for the urgency strategy).  With shared keys the stable sorts
preserve input order and the result may differ. -/
theorem c8_permutation_amended (strat : SchedulingStrategy) (seg : UnnamedTimeSegment)
    (start : Int) (l₁ l₂ : List Task) (hperm : l₁.Perm l₂)
    (hkeys : distinctKeys strat start l₁) :
    scheduleWithinSegment start l₁ seg strat = scheduleWithinSegment start l₂ seg strat := by
  have hrun : ∀ t : ScheduleTree, runStrategy strat t start l₁ = runStrategy strat t start l₂ := by
    intro t
    cases strat with
    | importance =>
      simp only [runStrategy, scheduleAccordingToImportance]
      rw [sort_eq_importance start l₁ l₂ hperm hkeys]
    | urgency =>
      simp only [runStrategy, scheduleAccordingToMyrjam]
      rw [sort_eq_myrjam l₁ l₂ hperm hkeys]
  rw [scheduleWithinSegment, scheduleWithinSegment]
  by_cases hnil : l₁ = []
  · subst hnil
    rw [hperm.nil_eq]
  · rw [if_neg hnil, if_neg (fun h => hnil (by simpa [h] using hperm.length_eq))]
    rw [show (l₁.map Task.deadline).max? = (l₂.map Task.deadline).max? from
      max?_perm (hperm.map Task.deadline)]
    generalize (l₂.map Task.deadline).max? = o
    rcases o with _ | lastDeadline
    · rfl
    · dsimp only
      generalize primeTree (seg.inverse.generateRanges start lastDeadline) ScheduleTree.new = pr
      rcases pr with m | tree
      · rfl
      · dsimp only
        simp only [hrun]

/-- Witness for C8 (amended): two distinct-importance tasks swapped give the
same schedule. -/
theorem c8_permutation_amended_witness :
    scheduleWithinSegment 0 [exC2a, exC2b] exAnytime .urgency =
      scheduleWithinSegment 0 [exC2b, exC2a] exAnytime .urgency :=
  c8_permutation_amended .urgency exAnytime 0 [exC2a, exC2b] [exC2b, exC2a]
    (List.Perm.swap _ _ _) (by simp [distinctKeys, exC2a, exC2b])

/-! ## C9 — duplicate tasks in the input -/

theorem itemEq_task_self (tk : Task) : itemEq (.task tk) (.task tk) = true := by
  simp [itemEq]

theorem mapGet_none_of_mapInsert_none :
    ∀ (m : List (RcItem × Int)) (i : Nat) (d : Item) (v : Int),
      (ScheduleTree.mapInsert m (i, d) v).1 = none →
      ScheduleTree.mapGet m d = none := by
  intro m
  induction m with
  | nil => intro i d v _; rfl
  | cons kv rest ih =>
    obtain ⟨k', v'⟩ := kv
    intro i d v hn
    rw [ScheduleTree.mapInsert] at hn
    by_cases hk : rcEq k' (i, d) = true
    · rw [if_pos hk] at hn
      simp at hn
    · rw [if_neg hk] at hn
      rcases hP : ScheduleTree.mapInsert rest (i, d) v with ⟨old, rest'⟩
      rw [hP] at hn
      dsimp only at hn
      subst hn
      have hkd : itemEq k'.2 d = false := by
        cases hb : itemEq k'.2 d with
        | false => rfl
        | true => exact absurd (by simp [rcEq, hb]) hk
      rw [ScheduleTree.mapGet, if_neg (by simp [hkd])]
      exact ih i d v (by rw [hP])

theorem mapGet_isSome_of_mapInsert_none :
    ∀ (m : List (RcItem × Int)) (k : RcItem) (v : Int) (d : Item),
      itemEq k.2 d = true →
      (ScheduleTree.mapInsert m k v).1 = none →
      (ScheduleTree.mapGet (ScheduleTree.mapInsert m k v).2 d).isSome = true := by
  intro m
  induction m with
  | nil =>
    intro k v d hd _
    simp [ScheduleTree.mapInsert, ScheduleTree.mapGet, hd]
  | cons kv rest ih =>
    obtain ⟨k', v'⟩ := kv
    intro k v d hd hn
    rw [ScheduleTree.mapInsert] at hn ⊢
    by_cases hk : rcEq k' k = true
    · rw [if_pos hk] at hn
      simp at hn
    · rw [if_neg hk] at hn ⊢
      rcases hP : ScheduleTree.mapInsert rest k v with ⟨old, rest'⟩
      rw [hP] at hn
      dsimp only at hn ⊢
      subst hn
      rw [ScheduleTree.mapGet]
      by_cases hkd : itemEq k'.2 d = true
      · rw [if_pos hkd]
        rfl
      · rw [if_neg hkd]
        have h2 := ih k v d hd (by rw [hP])
        rw [hP] at h2
        exact h2

theorem mapGet_isSome_mapInsert :
    ∀ (m : List (RcItem × Int)) (k : RcItem) (v : Int) (d : Item),
      (ScheduleTree.mapGet m d).isSome = true →
      (ScheduleTree.mapGet (ScheduleTree.mapInsert m k v).2 d).isSome = true := by
  intro m
  induction m with
  | nil =>
    intro k v d h
    simp [ScheduleTree.mapGet] at h
  | cons kv rest ih =>
    obtain ⟨k', v'⟩ := kv
    intro k v d h
    rw [ScheduleTree.mapGet] at h
    rw [ScheduleTree.mapInsert]
    by_cases hk : rcEq k' k = true
    · rw [if_pos hk]
      dsimp only
      rw [ScheduleTree.mapGet]
      by_cases hkd : itemEq k'.2 d = true
      · rw [if_pos hkd]
        rfl
      · rw [if_neg hkd]
        rw [if_neg hkd] at h
        exact h
    · rw [if_neg hk]
      rcases hP : ScheduleTree.mapInsert rest k v with ⟨old, rest'⟩
      dsimp only
      rw [ScheduleTree.mapGet]
      by_cases hkd : itemEq k'.2 d = true
      · rw [if_pos hkd]
        rfl
      · rw [if_neg hkd]
        rw [if_neg hkd] at h
        have h2 := ih k v d h
        rw [hP] at h2
        exact h2

theorem tryTrivial_ok_fields (t : ScheduleTree) (s e : Int) (d : RcItem) (r : Option Int)
    (t' : ScheduleTree) (h : t.tryScheduleTrivialCases s e d = .ok (r, t')) :
    t'.dataMap = t.dataMap ∧ t'.nextId = t.nextId := by
  unfold ScheduleTree.tryScheduleTrivialCases at h
  split at h
  · cases h
    exact ⟨rfl, rfl⟩
  · split at h
    · cases h
      exact ⟨rfl, rfl⟩
    · split at h
      · cases h
        exact ⟨rfl, rfl⟩
      · cases h
        exact ⟨rfl, rfl⟩
  · cases h

theorem closeBeforeAux_ok_fields (t : ScheduleTree) (stop dur : Int) (ms : Option Int)
    (d : RcItem) (r : Option Int) (t' : ScheduleTree)
    (h : t.scheduleCloseBeforeAux stop dur ms d = .ok (r, t')) :
    t'.dataMap = t.dataMap ∧ t'.nextId = t.nextId := by
  unfold ScheduleTree.scheduleCloseBeforeAux at h
  split at h
  · cases h
  · dsimp only at h
    split at h
    · cases h
    · rename_i s t1 heq
      cases h
      exact tryTrivial_ok_fields _ _ _ _ _ _ heq
    · rename_i t1 heq
      have hf := tryTrivial_ok_fields _ _ _ _ _ _ heq
      split at h
      · split at h
        · cases h
          exact hf
        · split at h
          · cases h
            exact hf
          · cases h
            exact hf
      · cases h

theorem closeBefore_ok_true_map (t : ScheduleTree) (stop dur : Int) (ms : Option Int)
    (d : Item) (t2 : ScheduleTree)
    (h : t.scheduleCloseBefore stop dur ms d = .ok (true, t2)) :
    ∃ s, ScheduleTree.mapInsert t.dataMap (t.nextId, d) s = (none, t2.dataMap) := by
  unfold ScheduleTree.scheduleCloseBefore at h
  dsimp only at h
  split at h
  · cases h
  · rename_i s t1 heq
    split at h
    · cases h
    · rename_i t3 hupd
      cases h
      have hf : t1.dataMap = t.dataMap :=
        (closeBeforeAux_ok_fields _ _ _ _ _ _ _ heq).1
      unfold ScheduleTree.updateMap at hupd
      split at hupd
      · cases hupd
      · rename_i m' hins
        cases hupd
        refine ⟨s, ?_⟩
        rw [← hf]
        exact hins
  · cases h

/-- If a duplicate remains in the task list, or some listed task is already in
the side index, phase 1 cannot succeed: the second occurrence either fails to
place (an `Err`) or reaches `update_map` and panics. -/
theorem phase1_dup_not_ok (start : Int) :
    ∀ (l : List Task) (t : ScheduleTree),
      (¬ l.Nodup ∨ ∃ tk ∈ l, (ScheduleTree.mapGet t.dataMap (.task tk)).isSome = true) →
      ∀ t', phase1 start l t ≠ .ok t' := by
  intro l
  induction l with
  | nil =>
    intro t hinv t' _
    rcases hinv with hnd | ⟨tk, hmem, _⟩
    · exact hnd List.nodup_nil
    · simp at hmem
  | cons task rest ih =>
    intro t hinv t' h
    rw [phase1] at h
    split at h
    · cases h
    · split at h
      · cases h
      · cases h
      · rename_i t1 hcb
        obtain ⟨s, hins⟩ := closeBefore_ok_true_map t task.deadline task.duration
          (some start) (.task task) t1 hcb
        have hfst : (ScheduleTree.mapInsert t.dataMap (t.nextId, Item.task task) s).1 = none := by
          rw [hins]
        have hsnd : (ScheduleTree.mapInsert t.dataMap (t.nextId, Item.task task) s).2 =
            t1.dataMap := by
          rw [hins]
        have hnone : ScheduleTree.mapGet t.dataMap (.task task) = none :=
          mapGet_none_of_mapInsert_none t.dataMap t.nextId (.task task) s hfst
        have hsome : (ScheduleTree.mapGet t1.dataMap (.task task)).isSome = true := by
          rw [← hsnd]
          exact mapGet_isSome_of_mapInsert_none t.dataMap (t.nextId, .task task) s (.task task)
            (itemEq_task_self task) hfst
        refine ih t1 ?_ t' h
        rcases hinv with hnd | ⟨tk, hmem, hsm⟩
        · rw [List.nodup_cons] at hnd
          rcases not_and_or.mp hnd with h1 | h2
          · exact Or.inr ⟨task, not_not.mp h1, hsome⟩
          · exact Or.inl h2
        · rcases List.mem_cons.mp hmem with he | he
          · subst he
            rw [hnone] at hsm
            simp at hsm
          · refine Or.inr ⟨tk, he, ?_⟩
            rw [← hsnd]
            exact mapGet_isSome_mapInsert t.dataMap (t.nextId, .task task) s (.task tk) hsm

/-- **C9 (counterexample).** With the never segment, a duplicated task *does*
make `schedule_within_segment` return an `Error` value (`NotEnoughTime` for the
first copy, whose placement fails before the duplicate is ever inserted), so
the panic in `update_map` is not the only possible outcome. -/
theorem c9_duplicate_counterexample :
    ¬ [exC9t, exC9t].Nodup ∧
    scheduleWithinSegment 0 [exC9t, exC9t] exNever .urgency =
      .err (.notEnoughTime exC9t) := by
  constructor
  · decide
  · rfl

/-- **C9 (amended).** A task list containing two equal tasks never yields a
successful schedule: the call returns an `Error` or panics (in particular,
when both copies are placed, `update_map` panics with the double-entry
message, as the witness shows on a concrete run). -/
theorem c9_duplicates_never_ok (start : Int) (tasks : List Task)
    (seg : UnnamedTimeSegment) (strat : SchedulingStrategy) (hdup : ¬ tasks.Nodup)
    (res : List Scheduled) :
    scheduleWithinSegment start tasks seg strat ≠ .ok res := by
  intro h
  rw [scheduleWithinSegment] at h
  split at h
  · rename_i hnil
    subst hnil
    exact hdup List.nodup_nil
  · split at h
    · cases h
    · rename_i lastD hmax
      split at h
      · cases h
      · rename_i tree hprime
        split at h
        · rename_i t1 hrun
          cases strat with
          | importance =>
            rw [runStrategy, scheduleAccordingToImportance] at hrun
            have hsorted :
                ¬ (UnnamedTimeSegment.stableSortBy (importanceLe start) tasks).Nodup :=
              fun hnd => hdup ((stableSortBy_perm (importanceLe start) tasks).nodup_iff.mp hnd)
            split at hrun
            · rename_i t2 heq
              exact phase1_dup_not_ok start _ tree (Or.inl hsorted) t2 heq
            · cases hrun
            · cases hrun
          | urgency =>
            rw [runStrategy, scheduleAccordingToMyrjam] at hrun
            have hsorted :
                ¬ (UnnamedTimeSegment.stableSortBy myrjamLe tasks).Nodup :=
              fun hnd => hdup ((stableSortBy_perm myrjamLe tasks).nodup_iff.mp hnd)
            split at hrun
            · rename_i t2 heq
              exact phase1_dup_not_ok start _ tree (Or.inl hsorted) t2 heq
            · cases hrun
            · cases hrun
        · cases h
        · cases h

/-- Witness for C9 (amended): the duplicated task under the anytime segment is
not scheduled successfully; concretely, that run panics with the double-entry
message of `update_map`. -/
theorem c9_duplicates_never_ok_witness :
    ¬ [exC9t, exC9t].Nodup ∧
    scheduleWithinSegment 0 [exC9t, exC9t] exAnytime .urgency ≠ .ok [] ∧
    scheduleWithinSegment 0 [exC9t, exC9t] exAnytime .urgency =
      .crash ScheduleTree.doubleEntryMsg :=
  ⟨by decide, c9_duplicates_never_ok 0 [exC9t, exC9t] exAnytime .urgency (by decide) [],
    by rfl⟩

/-! ## Schedule-tree invariants (shared by C1, C5 and C10) -/

theorem itemEq_eq_true_iff (a b : Item) :
    itemEq a b = true ↔ ∃ tk, a = .task tk ∧ b = .task tk := by
  cases a with
  | task t =>
    cases b with
    | task u =>
      constructor
      · intro h
        simp [itemEq] at h
        exact ⟨t, rfl, by rw [h]⟩
      · rintro ⟨tk, h1, h2⟩
        injection h1 with h1'
        injection h2 with h2'
        subst h1'
        subst h2'
        simp [itemEq]
    | nothing => simp [itemEq]
  | nothing =>
    cases b <;> simp [itemEq]

theorem startsMeasure_entries (base : Int) :
    ∀ n : Node, n.startsMeasure base = ((n.entries).map fun e => (e.1 - base).toNat).sum := by
  intro n
  induction n with
  | leaf s e d => simp [Node.startsMeasure, Node.entries]
  | intermediate fs fe l r ihl ihr =>
    simp [Node.startsMeasure, Node.entries, ihl, ihr]

theorem wfP_entries (P : Int → Int → Item → Prop) :
    ∀ n : Node, n.wfP P →
      (∀ ent ∈ n.entries, (n.findScope).1 ≤ ent.1 ∧ ent.1 ≤ ent.2.1 ∧
        ent.2.1 ≤ (n.findScope).2 ∧ P ent.1 ent.2.1 ent.2.2.2) ∧
      n.entries.Pairwise (fun a b => a.2.1 ≤ b.1) ∧
      (n.findScope).1 ≤ (n.findScope).2 := by
  intro n
  induction n with
  | leaf s e d =>
    intro hwf
    have hwf' : s ≤ e ∧ P s e d.2 := hwf
    refine ⟨?_, by simp [Node.entries], hwf'.1⟩
    intro ent hent
    rw [Node.entries, List.mem_singleton] at hent
    subst hent
    exact ⟨le_refl _, hwf'.1, le_refl _, hwf'.2⟩
  | intermediate fs fe l r ihl ihr =>
    intro hwf
    have hwf' : l.wfP P ∧ r.wfP P ∧ (l.findScope).2 ≤ fs ∧ fs ≤ fe ∧
        fe ≤ (r.findScope).1 := hwf
    obtain ⟨hl, hr, hb1, hb2, hb3⟩ := hwf'
    obtain ⟨hml, hpl, hcl⟩ := ihl hl
    obtain ⟨hmr, hpr, hcr⟩ := ihr hr
    simp only [Node.entries, Node.findScope]
    refine ⟨?_, ?_, by omega⟩
    · intro ent hent
      rcases List.mem_append.mp hent with he | he
      · obtain ⟨a1, a2, a3, a4⟩ := hml ent he
        exact ⟨a1, a2, by omega, a4⟩
      · obtain ⟨a1, a2, a3, a4⟩ := hmr ent he
        exact ⟨by omega, a2, a3, a4⟩
    · rw [List.pairwise_append]
      refine ⟨hpl, hpr, ?_⟩
      intro x hx y hy
      have bx := (hml x hx).2.2.1
      have by' := (hmr y hy).1
      omega

theorem insert_sound (P : Int → Int → Item → Prop) (start stop : Int) (data : RcItem)
    (hse : start ≤ stop) (hP : P start stop data.2) :
    ∀ (n : Node) (s' : Int) (n' : Node), n.wfP P → n.insert start stop data = some (s', n') →
      s' = start ∧ n'.wfP P ∧ n'.findScope = n.findScope ∧
      n'.entries.Perm ((start, stop, data) :: n.entries) := by
  intro n
  induction n with
  | leaf s e d =>
    intro s' n' _ h
    simp [Node.insert] at h
  | intermediate fs fe l r ihl ihr =>
    intro s' n' hwf h
    have hwf' : l.wfP P ∧ r.wfP P ∧ (l.findScope).2 ≤ fs ∧ fs ≤ fe ∧
        fe ≤ (r.findScope).1 := hwf
    obtain ⟨hl, hr, hb1, hb2, hb3⟩ := hwf'
    rw [Node.insert] at h
    split at h
    · rcases hi : l.insert start stop data with _ | ⟨p1, p2⟩
      · rw [hi] at h
        dsimp only [Option.map] at h
        cases h
      · rw [hi] at h
        dsimp only [Option.map] at h
        cases h
        obtain ⟨e1, e2, e3, e4⟩ := ihl _ _ hl hi
        subst e1
        refine ⟨rfl, ⟨e2, hr, by rw [e3]; exact hb1, hb2, hb3⟩,
          by simp only [Node.findScope, e3], ?_⟩
        simp only [Node.entries]
        exact e4.append_right _
    · split at h
      · rcases hi : r.insert start stop data with _ | ⟨p1, p2⟩
        · rw [hi] at h
          dsimp only [Option.map] at h
          cases h
        · rw [hi] at h
          dsimp only [Option.map] at h
          cases h
          obtain ⟨e1, e2, e3, e4⟩ := ihr _ _ hr hi
          subst e1
          refine ⟨rfl, ⟨hl, e2, hb1, hb2, by rw [e3]; exact hb3⟩,
            by simp only [Node.findScope, e3], ?_⟩
          simp only [Node.entries]
          exact (List.Perm.append_left _ e4).trans List.perm_middle
      · split at h
        · rename_i hc3
          obtain ⟨hc3a, hc3b⟩ := hc3
          dsimp only [Node.uncheckedInsert] at h
          cases h
          refine ⟨rfl, ⟨hl, ⟨⟨hse, hP⟩, hr, le_refl _, hc3b, hb3⟩, hb1, hc3a, le_refl _⟩,
            rfl, ?_⟩
          simp only [Node.entries, List.singleton_append]
          exact List.perm_middle
        · cases h

theorem insertBefore_sound (P : Int → Int → Item → Prop) (stop dur : Int)
    (minStart : Option Int) (data : RcItem) (hdur : 0 ≤ dur)
    (hP : ∀ s', (∀ m, minStart = some m → m ≤ s') → s' + dur ≤ stop → P s' (s' + dur) data.2) :
    ∀ (n : Node) (s' : Int) (n' : Node), n.wfP P →
      n.insertBefore stop dur minStart data = some (s', n') →
      (∀ m, minStart = some m → m ≤ s') ∧ s' + dur ≤ stop ∧ n'.wfP P ∧
      n'.findScope = n.findScope ∧ n'.entries.Perm ((s', s' + dur, data) :: n.entries) := by
  intro n
  induction n with
  | leaf s e d =>
    intro s' n' _ h
    simp [Node.insertBefore] at h
  | intermediate fs fe l r ihl ihr =>
    intro s' n' hwf h
    have hwf' : l.wfP P ∧ r.wfP P ∧ (l.findScope).2 ≤ fs ∧ fs ≤ fe ∧
        fe ≤ (r.findScope).1 := hwf
    obtain ⟨hl, hr, hb1, hb2, hb3⟩ := hwf'
    rw [Node.insertBefore] at h
    split at h
    · rename_i s1 r1 heq
      cases h
      split at heq
      · obtain ⟨e1, e2, e3, e4, e5⟩ := ihr _ _ hr heq
        refine ⟨e1, e2, ⟨hl, e3, hb1, hb2, by rw [e4]; exact hb3⟩,
          by simp only [Node.findScope, e4], ?_⟩
        simp only [Node.entries]
        exact (List.Perm.append_left _ e5).trans List.perm_middle
      · cases heq
    · rename_i heq
      dsimp only at h
      split at h
      · rename_i hcond
        obtain ⟨hcond1, hcond2⟩ := hcond
        dsimp only [Node.uncheckedInsert] at h
        cases h
        have hms : ∀ m, minStart = some m → m ≤ min stop fe - dur := by
          intro m hm
          rw [hm] at hcond2
          simpa [Option.all] using hcond2
        have hsd : (min stop fe - dur) + dur ≤ stop := by omega
        have hPP : P (min stop fe - dur) (min stop fe) data.2 := by
          have harith : min stop fe - dur + dur = min stop fe := by ring
          have := hP _ hms hsd
          rwa [harith] at this
        have harith : min stop fe - dur + dur = min stop fe := by ring
        refine ⟨hms, hsd, ⟨hl, ⟨⟨by omega, hPP⟩, hr, le_refl _, by omega, hb3⟩,
          hb1, hcond1, le_refl _⟩, rfl, ?_⟩
        rw [harith]
        simp only [Node.entries, List.singleton_append]
        exact List.perm_middle
      · split at h
        · cases h
        · rcases hi : l.insertBefore stop dur minStart data with _ | ⟨p1, p2⟩
          · rw [hi] at h
            dsimp only [Option.map] at h
            cases h
          · rw [hi] at h
            dsimp only [Option.map] at h
            cases h
            obtain ⟨e1, e2, e3, e4, e5⟩ := ihl _ _ hl hi
            refine ⟨e1, e2, ⟨e3, hr, by rw [e4]; exact hb1, hb2, hb3⟩,
              by simp only [Node.findScope, e4], ?_⟩
            simp only [Node.entries]
            exact e5.append_right _

theorem insertAfter_sound (P : Int → Int → Item → Prop) (start dur : Int)
    (maxEnd : Option Int) (data : RcItem) (hdur : 0 ≤ dur)
    (hP : ∀ s', start ≤ s' → (∀ m, maxEnd = some m → s' + dur ≤ m) → P s' (s' + dur) data.2) :
    ∀ (n : Node) (s' : Int) (n' : Node), n.wfP P →
      n.insertAfter start dur maxEnd data = some (s', n') →
      start ≤ s' ∧ (∀ m, maxEnd = some m → s' + dur ≤ m) ∧ n'.wfP P ∧
      n'.findScope = n.findScope ∧ n'.entries.Perm ((s', s' + dur, data) :: n.entries) := by
  intro n
  induction n with
  | leaf s e d =>
    intro s' n' _ h
    simp [Node.insertAfter] at h
  | intermediate fs fe l r ihl ihr =>
    intro s' n' hwf h
    have hwf' : l.wfP P ∧ r.wfP P ∧ (l.findScope).2 ≤ fs ∧ fs ≤ fe ∧
        fe ≤ (r.findScope).1 := hwf
    obtain ⟨hl, hr, hb1, hb2, hb3⟩ := hwf'
    rw [Node.insertAfter] at h
    split at h
    · rename_i s1 l1 heq
      cases h
      split at heq
      · obtain ⟨e1, e2, e3, e4, e5⟩ := ihl _ _ hl heq
        refine ⟨e1, e2, ⟨e3, hr, by rw [e4]; exact hb1, hb2, hb3⟩,
          by simp only [Node.findScope, e4], ?_⟩
        simp only [Node.entries]
        exact e5.append_right _
      · cases heq
    · rename_i heq
      dsimp only at h
      split at h
      · rename_i hcond
        obtain ⟨hcond1, hcond2⟩ := hcond
        dsimp only [Node.uncheckedInsert] at h
        cases h
        have hme : ∀ m, maxEnd = some m → max start fs + dur ≤ m := by
          intro m hm
          rw [hm] at hcond2
          simpa [Option.all] using hcond2
        have hPP : P (max start fs) (max start fs + dur) data.2 :=
          hP _ (by omega) hme
        refine ⟨by omega, hme, ⟨hl, ⟨⟨by omega, hPP⟩, hr, le_refl _, hcond1, hb3⟩,
          hb1, by omega, le_refl _⟩, rfl, ?_⟩
        simp only [Node.entries, List.singleton_append]
        exact List.perm_middle
      · split at h
        · cases h
        · rcases hi : r.insertAfter start dur maxEnd data with _ | ⟨p1, p2⟩
          · rw [hi] at h
            dsimp only [Option.map] at h
            cases h
          · rw [hi] at h
            dsimp only [Option.map] at h
            cases h
            obtain ⟨e1, e2, e3, e4, e5⟩ := ihr _ _ hr hi
            refine ⟨e1, e2, ⟨hl, e3, hb1, hb2, by rw [e4]; exact hb3⟩,
              by simp only [Node.findScope, e4], ?_⟩
            simp only [Node.entries]
            exact (List.Perm.append_left _ e5).trans List.perm_middle

theorem unscheduleGo_sound (P : Int → Int → Item → Prop) (start : Int) (d : Item) :
    ∀ (n : Node) (entry : Int × Int × RcItem) (sc : Int × Int) (n' : Node),
      n.wfP P → n.unscheduleGo start d = some (entry, sc, n') →
      n'.wfP P ∧ sc = n'.findScope ∧
      (n.findScope).1 ≤ (n'.findScope).1 ∧ (n'.findScope).2 ≤ (n.findScope).2 ∧
      itemEq d entry.2.2.2 = true ∧
      n.entries.Perm (entry :: n'.entries) := by
  intro n
  induction n with
  | leaf s e dd =>
    intro entry sc n' _ h
    simp [Node.unscheduleGo] at h
  | intermediate fs fe l r ihl ihr =>
    intro entry sc n' hwf h
    have hwf' : l.wfP P ∧ r.wfP P ∧ (l.findScope).2 ≤ fs ∧ fs ≤ fe ∧
        fe ≤ (r.findScope).1 := hwf
    obtain ⟨hl, hr, hb1, hb2, hb3⟩ := hwf'
    rw [Node.unscheduleGo.eq_def] at h
    dsimp only at h
    split at h
    · split at h
      · rename_i hc1 ls le ld
        split at h
        · rename_i hmatch
          cases h
          have hlwf : ls ≤ le ∧ P ls le ld.2 := hl
          obtain ⟨hle, hPl⟩ := hlwf
          refine ⟨hr, rfl, ?_, ?_, hmatch.2, ?_⟩
          · simp only [Node.findScope] at hb1 ⊢
            omega
          · simp only [Node.findScope]
            omega
          · simp only [Node.entries, List.singleton_append]
            exact List.Perm.refl _
        · cases h
      · rename_i hc1 lfs lfe ll lr
        rcases hi : Node.unscheduleGo (.intermediate lfs lfe ll lr) start d
          with _ | ⟨ent1, sc1, l'⟩
        · rw [hi] at h
          dsimp only [Option.map] at h
          cases h
        · rw [hi] at h
          dsimp only [Option.map] at h
          cases h
          obtain ⟨e1, e2, e3, e4, e5, e6⟩ := ihl _ _ _ hl hi
          subst e2
          refine ⟨⟨e1, hr, le_refl _, ?_, hb3⟩, rfl, ?_, le_refl _, e5, ?_⟩
          · simp only [Node.findScope] at e4 hb1
            omega
          · simp only [Node.findScope] at e3 ⊢
            omega
          · simp only [Node.entries]
            exact e6.append_right _
    · split at h
      · split at h
        · rename_i hc2 rs re rd
          split at h
          · rename_i hmatch
            cases h
            have hrwf : rs ≤ re ∧ P rs re rd.2 := hr
            obtain ⟨hre, hPr⟩ := hrwf
            refine ⟨hl, rfl, ?_, ?_, hmatch.2, ?_⟩
            · simp only [Node.findScope]
              omega
            · simp only [Node.findScope] at hb3 ⊢
              omega
            · simp only [Node.entries]
              exact List.perm_append_singleton _ _
          · cases h
        · rename_i rfs rfe rl rr
          rcases hi : Node.unscheduleGo (.intermediate rfs rfe rl rr) start d
            with _ | ⟨ent1, sc1, r'⟩
          · rw [hi] at h
            dsimp only [Option.map] at h
            cases h
          · rw [hi] at h
            dsimp only [Option.map] at h
            cases h
            obtain ⟨e1, e2, e3, e4, e5, e6⟩ := ihr _ _ _ hr hi
            subst e2
            refine ⟨⟨hl, e1, hb1, ?_, le_refl _⟩, rfl, le_refl _, ?_, e5, ?_⟩
            · simp only [Node.findScope] at e3 hb3
              omega
            · simp only [Node.findScope] at e4 ⊢
              omega
            · simp only [Node.entries]
              exact (List.Perm.append_left _ e6).trans List.perm_middle
      · cases h

theorem mapInsert_none_structure :
    ∀ (m : List (RcItem × Int)) (k : RcItem) (v : Int),
      (ScheduleTree.mapInsert m k v).1 = none →
      (ScheduleTree.mapInsert m k v).2 = m ++ [(k, v)] ∧ ∀ kv ∈ m, rcEq kv.1 k = false := by
  intro m
  induction m with
  | nil =>
    intro k v _
    exact ⟨rfl, by simp⟩
  | cons kv0 rest ih =>
    obtain ⟨k', v'⟩ := kv0
    intro k v hn
    rw [ScheduleTree.mapInsert] at hn ⊢
    by_cases hk : rcEq k' k = true
    · rw [if_pos hk] at hn
      simp at hn
    · rw [if_neg hk] at hn ⊢
      rcases hP : ScheduleTree.mapInsert rest k v with ⟨old, rest'⟩
      rw [hP] at hn
      dsimp only at hn ⊢
      subst hn
      obtain ⟨ih1, ih2⟩ := ih k v (by rw [hP])
      rw [hP] at ih1
      dsimp only at ih1
      constructor
      · rw [ih1]
        rfl
      · intro kv hkv
        rcases List.mem_cons.mp hkv with he | he
        · subst he
          simp only [Bool.not_eq_true] at hk
          exact hk
        · exact ih2 kv he

theorem mapGet_last_of_no_match :
    ∀ (m : List (RcItem × Int)) (k : RcItem) (v : Int) (d : Item),
      (∀ kv ∈ m, itemEq kv.1.2 d = false) → itemEq k.2 d = true →
      ScheduleTree.mapGet (m ++ [(k, v)]) d = some v := by
  intro m
  induction m with
  | nil =>
    intro k v d _ hk
    simp [ScheduleTree.mapGet, hk]
  | cons kv0 rest ih =>
    obtain ⟨k', v'⟩ := kv0
    intro k v d hnm hk
    rw [List.cons_append, ScheduleTree.mapGet]
    rw [if_neg (by simp [hnm (k', v') (List.mem_cons_self _ _)])]
    exact ih k v d (fun kv hkv => hnm kv (List.mem_cons_of_mem _ hkv)) hk

theorem mapRemove_some_structure :
    ∀ (m : List (RcItem × Int)) (d : Item) (v : Int),
      (ScheduleTree.mapRemove m d).1 = some v →
      ∃ m1 k1 m2, m = m1 ++ (k1, v) :: m2 ∧ itemEq k1.2 d = true ∧
        (∀ kv ∈ m1, itemEq kv.1.2 d = false) ∧
        (ScheduleTree.mapRemove m d).2 = m1 ++ m2 := by
  intro m
  induction m with
  | nil =>
    intro d v h
    simp [ScheduleTree.mapRemove] at h
  | cons kv0 rest ih =>
    obtain ⟨k', v'⟩ := kv0
    intro d v h
    rw [ScheduleTree.mapRemove] at h ⊢
    by_cases hk : itemEq k'.2 d = true
    · rw [if_pos hk] at h ⊢
      dsimp only at h
      injection h with h'
      subst h'
      exact ⟨[], k', rest, by simp, hk, by simp, rfl⟩
    · rw [if_neg hk] at h ⊢
      rcases hP : ScheduleTree.mapRemove rest d with ⟨w, rest'⟩
      rw [hP] at h
      dsimp only at h ⊢
      subst h
      obtain ⟨m1, k1, m2, hm, hk1, hnm, hrem⟩ := ih d v (by rw [hP])
      rw [hP] at hrem
      dsimp only at hrem
      refine ⟨(k', v') :: m1, k1, m2, by rw [hm]; rfl, hk1, ?_, ?_⟩
      · intro kv hkv
        rcases List.mem_cons.mp hkv with he | he
        · subst he
          simp only [Bool.not_eq_true] at hk
          exact hk
        · exact hnm kv he
      · rw [hrem]
        rfl

theorem Wf_root_some (P : Int → Int → Item → Prop) (t : ScheduleTree) (n : Node)
    (hwf : t.Wf P) (h : t.root = some n) :
    n.wfP P ∧ t.scope = some n.findScope := by
  unfold ScheduleTree.Wf at hwf
  rw [h] at hwf
  exact hwf

theorem tryTrivial_sound (P : Int → Int → Item → Prop) (t : ScheduleTree) (start stop : Int)
    (data : RcItem) (hse : start ≤ stop) (hP : P start stop data.2) (hwf : t.Wf P) :
    ∀ (res : Option Int) (t' : ScheduleTree),
      t.tryScheduleTrivialCases start stop data = .ok (res, t') →
      (res = none → t' = t ∧ ∀ sc, t.scope = some sc → sc.1 < stop ∧ start < sc.2) ∧
      (∀ s', res = some s' → s' = start ∧ t'.Wf P ∧ t'.dataMap = t.dataMap ∧
        t'.nextId = t.nextId ∧ t'.iterEntries.Perm ((start, stop, data) :: t.iterEntries)) := by
  intro res t' h
  unfold ScheduleTree.tryScheduleTrivialCases at h
  split at h
  · rename_i hroot hscope
    cases h
    constructor
    · intro hres
      cases hres
    · intro s' hres
      injection hres with hres'
      subst hres'
      refine ⟨rfl, ⟨⟨hse, hP⟩, rfl⟩, rfl, rfl, ?_⟩
      simp only [ScheduleTree.iterEntries, hroot, Node.entries]
      exact List.Perm.refl _
  · rename_i root ss se hroot hscope
    obtain ⟨hwfr, hsceq⟩ := Wf_root_some P t root hwf hroot
    rw [hscope] at hsceq
    injection hsceq with hsc'
    split at h
    · rename_i hc1
      cases h
      constructor
      · intro hres
        cases hres
      · intro s' hres
        injection hres with hres'
        subst hres'
        refine ⟨rfl, ?_, rfl, rfl, ?_⟩
        · refine ⟨⟨⟨hse, hP⟩, hwfr, le_refl _, hc1, le_of_eq (congrArg Prod.fst hsc')⟩, ?_⟩
          show some (start, se) = _
          simp only [Node.findScope, ← hsc']
        · simp only [ScheduleTree.iterEntries, hroot, Node.entries, List.singleton_append]
          exact List.Perm.refl _
    · split at h
      · rename_i hc1 hc2
        cases h
        constructor
        · intro hres
          cases hres
        · intro s' hres
          injection hres with hres'
          subst hres'
          refine ⟨rfl, ?_, rfl, rfl, ?_⟩
          · refine ⟨⟨hwfr, ⟨hse, hP⟩, le_of_eq (congrArg Prod.snd hsc').symm, hc2,
              le_refl _⟩, ?_⟩
            show some (ss, stop) = _
            simp only [Node.findScope, ← hsc']
          · simp only [ScheduleTree.iterEntries, hroot, Node.entries]
            exact List.perm_append_singleton _ _
      · rename_i hc1 hc2
        cases h
        constructor
        · intro _
          refine ⟨rfl, ?_⟩
          intro sc hsc
          rw [hscope] at hsc
          injection hsc with hsc2
          subst hsc2
          exact ⟨by omega, by omega⟩
        · intro s' hres
          cases hres
  · cases h

theorem tree_startsMeasure_eq (t : ScheduleTree) (base : Int) :
    t.startsMeasure base = ((t.iterEntries).map fun e => (e.1 - base).toNat).sum := by
  cases hr : t.root with
  | none => simp [ScheduleTree.startsMeasure, ScheduleTree.iterEntries, hr]
  | some n =>
    simp [ScheduleTree.startsMeasure, ScheduleTree.iterEntries, hr, startsMeasure_entries]

theorem scheduleExactAux_sound (P : Int → Int → Item → Prop) (t : ScheduleTree)
    (start dur : Int) (data : RcItem) (hdur : 0 ≤ dur) (hP : P start (start + dur) data.2)
    (hwf : t.Wf P) :
    ∀ res t', t.scheduleExactAux start dur data = .ok (res, t') →
      (res = none → t' = t) ∧
      (∀ s', res = some s' → t'.Wf P ∧ t'.dataMap = t.dataMap ∧ t'.nextId = t.nextId ∧
        t'.iterEntries.Perm ((start, start + dur, data) :: t.iterEntries)) := by
  intro res t' h
  unfold ScheduleTree.scheduleExactAux at h
  dsimp only at h
  split at h
  · cases h
  · rename_i s1 t1 heq
    cases h
    have htt := tryTrivial_sound P t start (start + dur) data (by omega) hP hwf _ _ heq
    constructor
    · intro hres
      cases hres
    · intro s' hres
      obtain ⟨e1, e2, e3, e4, e5⟩ := htt.2 s1 rfl
      exact ⟨e2, e3, e4, e5⟩
  · rename_i t1 heq
    have htt := tryTrivial_sound P t start (start + dur) data (by omega) hP hwf _ _ heq
    obtain ⟨ht1, _⟩ := htt.1 rfl
    subst ht1
    split at h
    · cases h
    · rename_i root hroot
      obtain ⟨hwfr, hsceq⟩ := Wf_root_some P t1 root hwf hroot
      split at h
      · rename_i s1 root1 hins
        cases h
        obtain ⟨e1, e2, e3, e4⟩ :=
          insert_sound P start (start + dur) data (by omega) hP root _ _ hwfr hins
        constructor
        · intro hres
          cases hres
        · intro s' hres
          refine ⟨⟨e2, ?_⟩, rfl, rfl, ?_⟩
          · show t1.scope = some root1.findScope
            rw [hsceq, e3]
          · simp only [ScheduleTree.iterEntries, hroot]
            exact e4
      · cases h
        constructor
        · intro _
          rfl
        · intro s' hres
          cases hres

theorem scheduleExact_sound (P : Int → Int → Item → Prop) (t : ScheduleTree)
    (start dur : Int) (d : Item) (hdur : 0 ≤ dur) (hP : P start (start + dur) d)
    (hInv : t.Inv P) :
    ∀ b t2, t.scheduleExact start dur d = .ok (b, t2) → t2.Inv P := by
  obtain ⟨hwf, hlive, huniq⟩ := hInv
  intro b t2 h
  unfold ScheduleTree.scheduleExact at h
  dsimp only at h
  split at h
  · cases h
  · rename_i s1 t1 heq
    split at h
    · cases h
    · rename_i t3 hupd
      cases h
      have hwfb : ScheduleTree.Wf P {t with nextId := t.nextId + 1} := hwf
      have haux := scheduleExactAux_sound P {t with nextId := t.nextId + 1} start dur
        (t.nextId, d) hdur hP hwfb _ _ heq
      obtain ⟨e2, e3, e4, e5⟩ := haux.2 s1 rfl
      have e3' : t1.dataMap = t.dataMap := e3
      unfold ScheduleTree.updateMap at hupd
      split at hupd
      · cases hupd
      · rename_i m' hins
        cases hupd
        rw [e3'] at hins
        obtain ⟨hstr1, hstr2⟩ := mapInsert_none_structure t.dataMap (t.nextId, d) s1
          (by rw [hins])
        rw [hins] at hstr1
        dsimp only at hstr1
        refine ⟨e2, ?_, ?_⟩
        · intro kv hkv
          have hkv' : kv ∈ t.dataMap ++ [((t.nextId, d), s1)] := hstr1 ▸ hkv
          rcases List.mem_append.mp hkv' with hm | hm
          · obtain ⟨ent, hent, hee⟩ := hlive kv hm
            exact ⟨ent, e5.mem_iff.mpr (List.mem_cons_of_mem _ hent), hee⟩
          · rw [List.mem_singleton] at hm
            subst hm
            exact ⟨(start, start + dur, (t.nextId, d)),
              e5.mem_iff.mpr (List.mem_cons_self _ _), rfl⟩
        · show m'.Pairwise _
          rw [hstr1, List.pairwise_append]
          refine ⟨huniq, List.pairwise_singleton _ _, ?_⟩
          intro a ha b hb
          rw [List.mem_singleton] at hb
          subst hb
          have := hstr2 a ha
          simp only [rcEq, Bool.or_eq_false_iff] at this
          exact this.2
  · rename_i t1 heq
    cases h
    have hwfb : ScheduleTree.Wf P {t with nextId := t.nextId + 1} := hwf
    have haux := scheduleExactAux_sound P {t with nextId := t.nextId + 1} start dur
      (t.nextId, d) hdur hP hwfb _ _ heq
    have ht1 := haux.1 rfl
    subst ht1
    exact ⟨hwf, hlive, huniq⟩

theorem closeBeforeAux_sound (P : Int → Int → Item → Prop) (stop dur : Int)
    (minStart : Option Int) (data : RcItem) (hdur : 0 ≤ dur)
    (hP : ∀ s', (∀ m, minStart = some m → m ≤ s') → s' + dur ≤ stop → P s' (s' + dur) data.2)
    (t : ScheduleTree) (hwf : t.Wf P) :
    ∀ res t', t.scheduleCloseBeforeAux stop dur minStart data = .ok (res, t') →
      (res = none → t' = t) ∧
      (∀ s', res = some s' → t'.Wf P ∧ t'.dataMap = t.dataMap ∧ t'.nextId = t.nextId ∧
        (∀ m, minStart = some m → m ≤ s') ∧ s' + dur ≤ stop ∧
        t'.iterEntries.Perm ((s', s' + dur, data) :: t.iterEntries)) := by
  intro res t' h
  unfold ScheduleTree.scheduleCloseBeforeAux at h
  split at h
  · cases h
  · rename_i hassert
    rw [not_not] at hassert
    have hassert' : ∀ m, minStart = some m → m + dur ≤ stop := by
      intro m hm
      rw [hm] at hassert
      simpa [Option.all] using hassert
    have harith : stop - dur + dur = stop := by ring
    have hPopt : P (stop - dur) stop data.2 := by
      have := hP (stop - dur) (fun m hm => by have := hassert' m hm; omega) (by omega)
      rwa [harith] at this
    dsimp only at h
    split at h
    · cases h
    · rename_i s1 t1 heq
      cases h
      have htt := tryTrivial_sound P t (stop - dur) stop data (by omega) hPopt hwf _ _ heq
      constructor
      · intro hres
        cases hres
      · intro s' hres
        obtain ⟨e1, e2, e3, e4, e5⟩ := htt.2 s1 rfl
        injection hres with hres'
        subst hres'
        subst e1
        refine ⟨e2, e3, e4, ?_, by omega, ?_⟩
        · intro m hm
          have := hassert' m hm
          omega
        · rw [harith]
          exact e5
    · rename_i t1 heq
      have htt := tryTrivial_sound P t (stop - dur) stop data (by omega) hPopt hwf _ _ heq
      obtain ⟨ht1, hscfact⟩ := htt.1 rfl
      subst ht1
      split at h
      · rename_i root ss se hroot hscope
        obtain ⟨hwfr, hsceq⟩ := Wf_root_some P t1 root hwf hroot
        rw [hscope] at hsceq
        injection hsceq with hsc'
        split at h
        · rename_i s1 root1 hins
          cases h
          obtain ⟨e1, e2, e3, e4, e5⟩ :=
            insertBefore_sound P stop dur minStart data hdur hP root _ _ hwfr hins
          constructor
          · intro hres
            cases hres
          · intro s' hres
            injection hres with hres'
            subst hres'
            refine ⟨⟨e3, ?_⟩, rfl, rfl, e1, e2, ?_⟩
            · show t1.scope = some root1.findScope
              rw [hscope, e4, ← hsc']
            · simp only [ScheduleTree.iterEntries, hroot]
              exact e5
        · split at h
          · rename_i hms
            cases h
            have hms' : ∀ m, minStart = some m → m ≤ ss - dur := by
              intro m hm
              rw [hm] at hms
              simpa [Option.all] using hms
            have hlt := hscfact (ss, se) hscope
            have harith2 : ss - dur + dur = ss := by ring
            have hPP : P (ss - dur) ss data.2 := by
              have := hP (ss - dur) hms' (by omega)
              rwa [harith2] at this
            constructor
            · intro hres
              cases hres
            · intro s' hres
              injection hres with hres'
              subst hres'
              refine ⟨?_, rfl, rfl, hms', by omega, ?_⟩
              · refine ⟨⟨⟨by omega, hPP⟩, hwfr, le_refl _, le_refl _,
                  le_of_eq (congrArg Prod.fst hsc')⟩, ?_⟩
                show some (ss - dur, se) = _
                simp only [Node.findScope, ← hsc']
              · rw [harith2]
                simp only [ScheduleTree.iterEntries, hroot, Node.entries,
                  List.singleton_append]
                exact List.Perm.refl _
          · cases h
            constructor
            · intro _
              rfl
            · intro s' hres
              cases hres
      · cases h

theorem closeBefore_sound (P : Int → Int → Item → Prop) (stop dur : Int)
    (minStart : Option Int) (d : Item) (hdur : 0 ≤ dur)
    (hP : ∀ s', (∀ m, minStart = some m → m ≤ s') → s' + dur ≤ stop → P s' (s' + dur) d)
    (t : ScheduleTree) (hInv : t.Inv P) :
    ∀ b t2, t.scheduleCloseBefore stop dur minStart d = .ok (b, t2) → t2.Inv P := by
  obtain ⟨hwf, hlive, huniq⟩ := hInv
  intro b t2 h
  unfold ScheduleTree.scheduleCloseBefore at h
  dsimp only at h
  split at h
  · cases h
  · rename_i s1 t1 heq
    split at h
    · cases h
    · rename_i t3 hupd
      cases h
      have hwfb : ScheduleTree.Wf P {t with nextId := t.nextId + 1} := hwf
      have haux := closeBeforeAux_sound P stop dur minStart (t.nextId, d) hdur hP
        {t with nextId := t.nextId + 1} hwfb _ _ heq
      obtain ⟨e2, e3, e4, e5, e6, e7⟩ := haux.2 s1 rfl
      have e3' : t1.dataMap = t.dataMap := e3
      unfold ScheduleTree.updateMap at hupd
      split at hupd
      · cases hupd
      · rename_i m' hins
        cases hupd
        rw [e3'] at hins
        obtain ⟨hstr1, hstr2⟩ := mapInsert_none_structure t.dataMap (t.nextId, d) s1
          (by rw [hins])
        rw [hins] at hstr1
        dsimp only at hstr1
        refine ⟨e2, ?_, ?_⟩
        · intro kv hkv
          have hkv' : kv ∈ t.dataMap ++ [((t.nextId, d), s1)] := hstr1 ▸ hkv
          rcases List.mem_append.mp hkv' with hm | hm
          · obtain ⟨ent, hent, hee⟩ := hlive kv hm
            exact ⟨ent, e7.mem_iff.mpr (List.mem_cons_of_mem _ hent), hee⟩
          · rw [List.mem_singleton] at hm
            subst hm
            exact ⟨(s1, s1 + dur, (t.nextId, d)),
              e7.mem_iff.mpr (List.mem_cons_self _ _), rfl⟩
        · show m'.Pairwise _
          rw [hstr1, List.pairwise_append]
          refine ⟨huniq, List.pairwise_singleton _ _, ?_⟩
          intro a ha b hb
          rw [List.mem_singleton] at hb
          subst hb
          have := hstr2 a ha
          simp only [rcEq, Bool.or_eq_false_iff] at this
          exact this.2
  · rename_i t1 heq
    cases h
    have hwfb : ScheduleTree.Wf P {t with nextId := t.nextId + 1} := hwf
    have haux := closeBeforeAux_sound P stop dur minStart (t.nextId, d) hdur hP
      {t with nextId := t.nextId + 1} hwfb _ _ heq
    have ht1 := haux.1 rfl
    subst ht1
    exact ⟨hwf, hlive, huniq⟩

theorem closeAfterAux_sound (P : Int → Int → Item → Prop) (start dur : Int)
    (maxEnd : Option Int) (data : RcItem) (hdur : 0 ≤ dur)
    (hP : ∀ s', start ≤ s' → (∀ m, maxEnd = some m → s' + dur ≤ m) → P s' (s' + dur) data.2)
    (t : ScheduleTree) (hwf : t.Wf P) :
    ∀ res t', t.scheduleCloseAfterAux start dur maxEnd data = .ok (res, t') →
      (res = none → t' = t) ∧
      (∀ s', res = some s' → t'.Wf P ∧ t'.dataMap = t.dataMap ∧ t'.nextId = t.nextId ∧
        start ≤ s' ∧ (∀ m, maxEnd = some m → s' + dur ≤ m) ∧
        t'.iterEntries.Perm ((s', s' + dur, data) :: t.iterEntries)) := by
  intro res t' h
  unfold ScheduleTree.scheduleCloseAfterAux at h
  split at h
  · cases h
  · rename_i hassert
    rw [not_not] at hassert
    have hassert' : ∀ m, maxEnd = some m → start + dur ≤ m := by
      intro m hm
      rw [hm] at hassert
      simpa [Option.all] using hassert
    have hPopt : P start (start + dur) data.2 := hP start (le_refl _) hassert'
    dsimp only at h
    split at h
    · cases h
    · rename_i s1 t1 heq
      cases h
      have htt := tryTrivial_sound P t start (start + dur) data (by omega) hPopt hwf _ _ heq
      constructor
      · intro hres
        cases hres
      · intro s' hres
        obtain ⟨e1, e2, e3, e4, e5⟩ := htt.2 s1 rfl
        injection hres with hres'
        subst hres'
        subst e1
        exact ⟨e2, e3, e4, le_refl _, hassert', e5⟩
    · rename_i t1 heq
      have htt := tryTrivial_sound P t start (start + dur) data (by omega) hPopt hwf _ _ heq
      obtain ⟨ht1, hscfact⟩ := htt.1 rfl
      subst ht1
      split at h
      · rename_i root ss se hroot hscope
        obtain ⟨hwfr, hsceq⟩ := Wf_root_some P t1 root hwf hroot
        rw [hscope] at hsceq
        injection hsceq with hsc'
        split at h
        · rename_i s1 root1 hins
          cases h
          obtain ⟨e1, e2, e3, e4, e5⟩ :=
            insertAfter_sound P start dur maxEnd data hdur hP root _ _ hwfr hins
          constructor
          · intro hres
            cases hres
          · intro s' hres
            injection hres with hres'
            subst hres'
            refine ⟨⟨e3, ?_⟩, rfl, rfl, e1, e2, ?_⟩
            · show t1.scope = some root1.findScope
              rw [hscope, e4, ← hsc']
            · simp only [ScheduleTree.iterEntries, hroot]
              exact e5
        · split at h
          · rename_i hms
            cases h
            have hms' : ∀ m, maxEnd = some m → se + dur ≤ m := by
              intro m hm
              rw [hm] at hms
              simpa [Option.all] using hms
            have hlt := hscfact (ss, se) hscope
            have hPP : P se (se + dur) data.2 := hP se (by omega) hms'
            constructor
            · intro hres
              cases hres
            · intro s' hres
              injection hres with hres'
              subst hres'
              refine ⟨?_, rfl, rfl, by omega, hms', ?_⟩
              · refine ⟨⟨hwfr, ⟨by omega, hPP⟩,
                  le_of_eq (congrArg Prod.snd hsc').symm, le_refl _, le_refl _⟩, ?_⟩
                show some (ss, se + dur) = _
                simp only [Node.findScope, ← hsc']
              · simp only [ScheduleTree.iterEntries, hroot, Node.entries]
                exact List.perm_append_singleton _ _
          · cases h
            constructor
            · intro _
              rfl
            · intro s' hres
              cases hres
      · cases h

theorem closeAfter_sound (P : Int → Int → Item → Prop) (start dur : Int)
    (maxEnd : Option Int) (d : Item) (hdur : 0 ≤ dur)
    (hP : ∀ s', start ≤ s' → (∀ m, maxEnd = some m → s' + dur ≤ m) → P s' (s' + dur) d)
    (hdd : itemEq d d = true) (t : ScheduleTree) (hInv : t.Inv P)
    (hnm : ∀ kv ∈ t.dataMap, itemEq kv.1.2 d = false) :
    ∀ b t2, t.scheduleCloseAfter start dur maxEnd d = .ok (b, t2) →
      t2.Inv P ∧
      (b = true → ∃ s', start ≤ s' ∧ (∀ m, maxEnd = some m → s' + dur ≤ m) ∧
        ScheduleTree.mapGet t2.dataMap d = some s' ∧
        ∀ base, t2.startsMeasure base = (s' - base).toNat + t.startsMeasure base) := by
  obtain ⟨hwf, hlive, huniq⟩ := hInv
  intro b t2 h
  unfold ScheduleTree.scheduleCloseAfter at h
  dsimp only at h
  split at h
  · cases h
  · rename_i s1 t1 heq
    split at h
    · cases h
    · rename_i t3 hupd
      cases h
      have hwfb : ScheduleTree.Wf P {t with nextId := t.nextId + 1} := hwf
      have haux := closeAfterAux_sound P start dur maxEnd (t.nextId, d) hdur hP
        {t with nextId := t.nextId + 1} hwfb _ _ heq
      obtain ⟨e2, e3, e4, e5, e6, e7⟩ := haux.2 s1 rfl
      have e3' : t1.dataMap = t.dataMap := e3
      unfold ScheduleTree.updateMap at hupd
      split at hupd
      · cases hupd
      · rename_i m' hins
        cases hupd
        rw [e3'] at hins
        obtain ⟨hstr1, hstr2⟩ := mapInsert_none_structure t.dataMap (t.nextId, d) s1
          (by rw [hins])
        rw [hins] at hstr1
        dsimp only at hstr1
        refine ⟨⟨e2, ?_, ?_⟩, ?_⟩
        · intro kv hkv
          have hkv' : kv ∈ t.dataMap ++ [((t.nextId, d), s1)] := hstr1 ▸ hkv
          rcases List.mem_append.mp hkv' with hm | hm
          · obtain ⟨ent, hent, hee⟩ := hlive kv hm
            exact ⟨ent, e7.mem_iff.mpr (List.mem_cons_of_mem _ hent), hee⟩
          · rw [List.mem_singleton] at hm
            subst hm
            exact ⟨(s1, s1 + dur, (t.nextId, d)),
              e7.mem_iff.mpr (List.mem_cons_self _ _), rfl⟩
        · show m'.Pairwise _
          rw [hstr1, List.pairwise_append]
          refine ⟨huniq, List.pairwise_singleton _ _, ?_⟩
          intro a ha b' hb
          rw [List.mem_singleton] at hb
          subst hb
          have := hstr2 a ha
          simp only [rcEq, Bool.or_eq_false_iff] at this
          exact this.2
        · intro _
          refine ⟨s1, e5, e6, ?_, ?_⟩
          · show ScheduleTree.mapGet m' d = some s1
            rw [hstr1]
            exact mapGet_last_of_no_match t.dataMap (t.nextId, d) s1 d hnm hdd
          · intro base
            have ht2 : ({t1 with dataMap := m'} : ScheduleTree).iterEntries =
                t1.iterEntries := rfl
            have hbp : ({t with nextId := t.nextId + 1} : ScheduleTree).iterEntries =
                t.iterEntries := rfl
            rw [tree_startsMeasure_eq, tree_startsMeasure_eq, ht2,
              List.Perm.sum_eq (e7.map (fun e => (e.1 - base).toNat))]
            simp only [List.map_cons, List.sum_cons, hbp]
  · rename_i t1 heq
    cases h
    have hwfb : ScheduleTree.Wf P {t with nextId := t.nextId + 1} := hwf
    have haux := closeAfterAux_sound P start dur maxEnd (t.nextId, d) hdur hP
      {t with nextId := t.nextId + 1} hwfb _ _ heq
    have ht1 := haux.1 rfl
    subst ht1
    refine ⟨⟨hwf, hlive, huniq⟩, ?_⟩
    intro habs
    cases habs

theorem unschedule_sound (P : Int → Int → Item → Prop) (t : ScheduleTree) (d : Item)
    (hInv : t.Inv P) :
    ∀ (entry : Entry) (t' : ScheduleTree), t.unschedule d = (some entry, t') →
      t'.Inv P ∧ entry.data = d ∧ P entry.start entry.stop entry.data ∧
      entry.start ≤ entry.stop ∧
      (∀ kv ∈ t'.dataMap, itemEq kv.1.2 d = false) ∧
      ∀ base, t.startsMeasure base = (entry.start - base).toNat + t'.startsMeasure base := by
  obtain ⟨hwf, hlive, huniq⟩ := hInv
  intro entry t' h
  unfold ScheduleTree.unschedule at h
  rcases hrm : ScheduleTree.mapRemove t.dataMap d with ⟨w, m'⟩
  rw [hrm] at h
  dsimp only at h
  split at h
  · rename_i root wstart hroot
    obtain ⟨m1, k1, m2, hm, hk1, hnm1, hrem⟩ := mapRemove_some_structure t.dataMap d wstart
      (by rw [hrm])
    rw [hrm] at hrem
    dsimp only at hrem
    obtain ⟨tk, hk1t, hdt⟩ := (itemEq_eq_true_iff k1.2 d).mp hk1
    have huniq' : (m1 ++ (k1, wstart) :: m2).Pairwise
        (fun a b => itemEq a.1.2 b.1.2 = false) := by
      rw [← hm]
      exact huniq
    split at h
    · rename_i s e dd
      cases h
      obtain ⟨hwfl, hsceq⟩ := Wf_root_some P t _ hwf hroot
      have hwfl' : s ≤ e ∧ P s e dd.2 := hwfl
      have hIter : t.iterEntries = [(s, e, dd)] := by
        simp [ScheduleTree.iterEntries, hroot, Node.entries]
      have hk1mem : (k1, wstart) ∈ t.dataMap := by
        rw [hm]
        exact List.mem_append.mpr (Or.inr (List.mem_cons_self _ _))
      obtain ⟨ent, hent, hee⟩ := hlive (k1, wstart) hk1mem
      rw [hIter, List.mem_singleton] at hent
      subst hent
      have hddd : dd.2 = d := by rw [hee, hk1t, hdt]
      have hm'nil : ∀ kv ∈ m', False := by
        intro kv hkv
        rw [hrem] at hkv
        have hkvmem : kv ∈ t.dataMap := by
          rw [hm]
          rcases List.mem_append.mp hkv with h1 | h1
          · exact List.mem_append.mpr (Or.inl h1)
          · exact List.mem_append.mpr (Or.inr (List.mem_cons_of_mem _ h1))
        obtain ⟨ent2, hent2, hee2⟩ := hlive kv hkvmem
        rw [hIter, List.mem_singleton] at hent2
        subst hent2
        have hkvt : kv.1.2 = Item.task tk := by rw [← hee2, hee, hk1t]
        rcases List.mem_append.mp hkv with h1 | h1
        · have := (List.pairwise_append.mp huniq').2.2 kv h1 (k1, wstart)
            (List.mem_cons_self _ _)
          rw [hkvt, hk1t] at this
          simp [itemEq] at this
        · have hp2 := (List.pairwise_append.mp huniq').2.1
          have := (List.pairwise_cons.mp hp2).1 kv h1
          rw [hk1t, hkvt] at this
          simp [itemEq] at this
      refine ⟨⟨trivial, ?_, ?_⟩, hddd, hwfl'.2, hwfl'.1, ?_, ?_⟩
      · intro kv hkv
        exact (hm'nil kv hkv).elim
      · show m'.Pairwise _
        rw [hrem]
        exact List.Pairwise.sublist ((List.sublist_cons_self _ _).append_left m1) huniq'
      · intro kv hkv
        exact (hm'nil kv hkv).elim
      · intro base
        rw [tree_startsMeasure_eq, tree_startsMeasure_eq, hIter]
        simp [ScheduleTree.iterEntries]
    · rename_i fs fe l r
      rcases hgo : Node.unscheduleGo (.intermediate fs fe l r) wstart d
        with _ | ⟨ent1, sc1, root'⟩
      · rw [hgo] at h
        dsimp only at h
        cases h
      · rw [hgo] at h
        dsimp only at h
        cases h
        obtain ⟨hwfroot, hsceq⟩ := Wf_root_some P t _ hwf hroot
        obtain ⟨g1, g2, g3, g4, g5, g6⟩ := unscheduleGo_sound P wstart d _ _ _ _ hwfroot hgo
        obtain ⟨tk2, hdt2, hent1t⟩ := (itemEq_eq_true_iff d ent1.2.2.2).mp g5
        have hent1d : ent1.2.2.2 = d := by rw [hent1t, ← hdt2]
        have hmem1 : ent1 ∈ (Node.intermediate fs fe l r).entries :=
          g6.mem_iff.mpr (List.mem_cons_self _ _)
        obtain ⟨q1, q2, q3, q4⟩ := (wfP_entries P _ hwfroot).1 ent1 hmem1
        have hIter : t.iterEntries = (Node.intermediate fs fe l r).entries := by
          simp [ScheduleTree.iterEntries, hroot]
        have hnomatch : ∀ kv ∈ m', itemEq kv.1.2 d = false := by
          intro kv hkv
          by_cases hb : itemEq kv.1.2 d = true
          · exfalso
            obtain ⟨tk3, hkvt, hdt3⟩ := (itemEq_eq_true_iff _ _).mp hb
            have htk : tk3 = tk := by
              have h1 := hdt3.symm.trans hdt
              injection h1
            rw [hrem] at hkv
            rcases List.mem_append.mp hkv with h1 | h1
            · have := (List.pairwise_append.mp huniq').2.2 kv h1 (k1, wstart)
                (List.mem_cons_self _ _)
              rw [hkvt, hk1t, htk] at this
              simp [itemEq] at this
            · have hp2 := (List.pairwise_append.mp huniq').2.1
              have := (List.pairwise_cons.mp hp2).1 kv h1
              rw [hk1t, hkvt, htk] at this
              simp [itemEq] at this
          · simp only [Bool.not_eq_true] at hb
            exact hb
        refine ⟨⟨⟨g1, congrArg some g2⟩, ?_, ?_⟩, hent1d, q4, q2, hnomatch, ?_⟩
        · intro kv hkv
          have hkvmem : kv ∈ t.dataMap := by
            rw [hm]
            rw [hrem] at hkv
            rcases List.mem_append.mp hkv with h1 | h1
            · exact List.mem_append.mpr (Or.inl h1)
            · exact List.mem_append.mpr (Or.inr (List.mem_cons_of_mem _ h1))
          obtain ⟨ent2, hent2, hee2⟩ := hlive kv hkvmem
          rw [hIter] at hent2
          have hent2' := g6.mem_iff.mp hent2
          rcases List.mem_cons.mp hent2' with he | he
          · exfalso
            have := hnomatch kv hkv
            rw [← hee2, he, hent1d] at this
            rw [hdt] at this
            simp [itemEq] at this
          · exact ⟨ent2, he, hee2⟩
        · show m'.Pairwise _
          rw [hrem]
          exact List.Pairwise.sublist ((List.sublist_cons_self _ _).append_left m1) huniq'
        · intro base
          rw [tree_startsMeasure_eq, tree_startsMeasure_eq, hIter,
            List.Perm.sum_eq (g6.map (fun e => (e.1 - base).toNat))]
          simp [ScheduleTree.iterEntries]
  · cases h
  · cases h

theorem tryTrivial_error_msg (t : ScheduleTree) (s e : Int) (data : RcItem) (m' : String)
    (h : t.tryScheduleTrivialCases s e data = .error m') :
    m' = "Internal error: root and scope out of sync" := by
  unfold ScheduleTree.tryScheduleTrivialCases at h
  split at h
  · cases h
  · split at h
    · cases h
    · split at h
      · cases h
      · cases h
  · injection h with h'
    exact h'.symm

theorem closeBefore_error_characterize (t : ScheduleTree) (stop dur : Int)
    (ms : Option Int) (d : Item) (m' : String)
    (h : t.scheduleCloseBefore stop dur ms d = .error m') :
    (¬ (ms.all fun m => decide (m + dur ≤ stop)) = true ∧
      m' = ScheduleTree.closeBeforeAssertMsg) ∨
    m' = "Internal error: root and scope out of sync" ∨
    m' = "Internal error: root could not be taken as mut ref" ∨
    m' = ScheduleTree.doubleEntryMsg := by
  unfold ScheduleTree.scheduleCloseBefore at h
  dsimp only at h
  split at h
  · rename_i m0 heq
    injection h with h'
    subst h'
    unfold ScheduleTree.scheduleCloseBeforeAux at heq
    split at heq
    · rename_i hcond
      injection heq with heq'
      exact Or.inl ⟨hcond, heq'.symm⟩
    · dsimp only at heq
      split at heq
      · rename_i m1 htt
        injection heq with heq'
        subst heq'
        exact Or.inr (Or.inl (tryTrivial_error_msg _ _ _ _ _ htt))
      · cases heq
      · split at heq
        · split at heq
          · cases heq
          · split at heq
            · cases heq
            · cases heq
        · injection heq with heq'
          exact Or.inr (Or.inr (Or.inl heq'.symm))
  · rename_i s1 t1 heq
    split at h
    · rename_i m1 hupd
      injection h with h'
      subst h'
      unfold ScheduleTree.updateMap at hupd
      split at hupd
      · injection hupd with hupd'
        exact Or.inr (Or.inr (Or.inr hupd'.symm))
      · cases hupd
    · cases h
  · cases h

theorem closeAfter_error_characterize (t : ScheduleTree) (start dur : Int)
    (me : Option Int) (d : Item) (m' : String)
    (h : t.scheduleCloseAfter start dur me d = .error m') :
    (¬ (me.all fun m => decide (start + dur ≤ m)) = true ∧
      m' = ScheduleTree.closeAfterAssertMsg) ∨
    m' = "Internal error: root and scope out of sync" ∨
    m' = "Internal error: root could not be taken as mut ref" ∨
    m' = ScheduleTree.doubleEntryMsg := by
  unfold ScheduleTree.scheduleCloseAfter at h
  dsimp only at h
  split at h
  · rename_i m0 heq
    injection h with h'
    subst h'
    unfold ScheduleTree.scheduleCloseAfterAux at heq
    split at heq
    · rename_i hcond
      injection heq with heq'
      exact Or.inl ⟨hcond, heq'.symm⟩
    · dsimp only at heq
      split at heq
      · rename_i m1 htt
        injection heq with heq'
        subst heq'
        exact Or.inr (Or.inl (tryTrivial_error_msg _ _ _ _ _ htt))
      · cases heq
      · split at heq
        · split at heq
          · cases heq
          · split at heq
            · cases heq
            · cases heq
        · injection heq with heq'
          exact Or.inr (Or.inr (Or.inl heq'.symm))
  · rename_i s1 t1 heq
    split at h
    · rename_i m1 hupd
      injection h with h'
      subst h'
      unfold ScheduleTree.updateMap at hupd
      split at hupd
      · injection hupd with hupd'
        exact Or.inr (Or.inr (Or.inr hupd'.symm))
      · cases hupd
    · cases h
  · cases h

theorem closeBefore_no_assert_msgs (t : ScheduleTree) (stop dur : Int) (ms : Option Int)
    (d : Item) (hassert : (ms.all fun m => decide (m + dur ≤ stop)) = true) (m' : String)
    (h : t.scheduleCloseBefore stop dur ms d = .error m') :
    m' ≠ ScheduleTree.closeBeforeAssertMsg ∧ m' ≠ ScheduleTree.closeAfterAssertMsg ∧
    m' ≠ phase2FuelMsg := by
  rcases closeBefore_error_characterize t stop dur ms d m' h with ⟨hc, _⟩ | hm | hm | hm
  · exact absurd hassert hc
  · subst hm
    exact ⟨by decide, by decide, by decide⟩
  · subst hm
    exact ⟨by decide, by decide, by decide⟩
  · subst hm
    exact ⟨by decide, by decide, by decide⟩

theorem closeAfter_no_assert_msgs (t : ScheduleTree) (start dur : Int) (me : Option Int)
    (d : Item) (hassert : (me.all fun m => decide (start + dur ≤ m)) = true) (m' : String)
    (h : t.scheduleCloseAfter start dur me d = .error m') :
    m' ≠ ScheduleTree.closeBeforeAssertMsg ∧ m' ≠ ScheduleTree.closeAfterAssertMsg ∧
    m' ≠ phase2FuelMsg := by
  rcases closeAfter_error_characterize t start dur me d m' h with ⟨hc, _⟩ | hm | hm | hm
  · exact absurd hassert hc
  · subst hm
    exact ⟨by decide, by decide, by decide⟩
  · subst hm
    exact ⟨by decide, by decide, by decide⟩
  · subst hm
    exact ⟨by decide, by decide, by decide⟩

theorem phase1_sound (start : Int) :
    ∀ (l : List Task) (t : ScheduleTree), t.Inv (PayloadP start) →
      (∀ tk ∈ l, 0 ≤ tk.duration) →
      (∀ t', phase1 start l t = .ok t' → t'.Inv (PayloadP start)) ∧
      (∀ m', phase1 start l t = .crash m' →
        m' ≠ ScheduleTree.closeBeforeAssertMsg ∧ m' ≠ ScheduleTree.closeAfterAssertMsg ∧
        m' ≠ phase2FuelMsg) := by
  intro l
  induction l with
  | nil =>
    intro t hInv _
    constructor
    · intro t' h
      rw [phase1] at h
      cases h
      exact hInv
    · intro m' h
      rw [phase1] at h
      cases h
  | cons task rest ih =>
    intro t hInv hdur
    have hdtask : 0 ≤ task.duration := hdur task (List.mem_cons_self _ _)
    have hdrest : ∀ tk ∈ rest, 0 ≤ tk.duration :=
      fun tk htk => hdur tk (List.mem_cons_of_mem _ htk)
    have hP : ∀ s', (∀ m, (some start : Option Int) = some m → m ≤ s') →
        s' + task.duration ≤ task.deadline →
        PayloadP start s' (s' + task.duration) (.task task) := by
      intro s' hms hsd tk2 heq
      injection heq with heq'
      subst heq'
      exact ⟨hms start rfl, rfl, hsd⟩
    constructor
    · intro t' h
      rw [phase1] at h
      split at h
      · cases h
      · split at h
        · cases h
        · cases h
        · rename_i t1 hcb
          have hInv1 := closeBefore_sound (PayloadP start) task.deadline task.duration
            (some start) (.task task) hdtask hP t hInv _ _ hcb
          exact (ih t1 hInv1 hdrest).1 t' h
    · intro m' h
      rw [phase1] at h
      split at h
      · cases h
      · rename_i hguard
        split at h
        · rename_i m0 hcb
          injection h with h'
          subst h'
          exact closeBefore_no_assert_msgs t task.deadline task.duration (some start)
            (.task task) (by simp only [Option.all, decide_eq_true_eq]; omega) m0 hcb
        · cases h
        · rename_i t1 hcb
          have hInv1 := closeBefore_sound (PayloadP start) task.deadline task.duration
            (some start) (.task task) hdtask hP t hInv _ _ hcb
          exact (ih t1 hInv1 hdrest).2 m' h

theorem importancePass_sound (start : Int) :
    ∀ (l : List Task) (t : ScheduleTree), t.Inv (PayloadP start) →
      (∀ b t', importancePass start l t = .ok (b, t') →
        t'.Inv (PayloadP start) ∧ t'.startsMeasure start ≤ t.startsMeasure start ∧
        (b = true → t'.startsMeasure start < t.startsMeasure start)) ∧
      (∀ m', importancePass start l t = .crash m' →
        m' ≠ ScheduleTree.closeBeforeAssertMsg ∧ m' ≠ ScheduleTree.closeAfterAssertMsg ∧
        m' ≠ phase2FuelMsg) := by
  intro l
  induction l with
  | nil =>
    intro t hInv
    constructor
    · intro b t' h
      rw [importancePass] at h
      cases h
      exact ⟨hInv, le_refl _, fun hb => by cases hb⟩
    · intro m' h
      rw [importancePass] at h
      cases h
  | cons task rest ih =>
    intro t hInv
    constructor
    · intro b t' h
      rw [importancePass] at h
      split at h
      · cases h
      · rename_i entry t1 hun
        obtain ⟨hInv1, hed, hPent, hses, hnm1, hmeas1⟩ :=
          unschedule_sound (PayloadP start) t (.task task) hInv entry t1 hun
        obtain ⟨hb1, hb2, hb3⟩ := hPent task hed
        have hdd : itemEq entry.data entry.data = true := by
          rw [hed]
          simp [itemEq]
        have hPca : ∀ s', start ≤ s' →
            (∀ m, (some entry.stop : Option Int) = some m → s' + task.duration ≤ m) →
            PayloadP start s' (s' + task.duration) entry.data := by
          intro s' hss hme tk2 heq
          rw [hed] at heq
          injection heq with heq'
          subst heq'
          refine ⟨hss, rfl, ?_⟩
          have := hme entry.stop rfl
          omega
        have hnm1' : ∀ kv ∈ t1.dataMap, itemEq kv.1.2 entry.data = false := by
          rw [hed]
          exact hnm1
        split at h
        · cases h
        · cases h
        · rename_i t2 hca
          obtain ⟨hInv2, hex⟩ := closeAfter_sound (PayloadP start) start task.duration
            (some entry.stop) entry.data (by omega) hPca hdd t1 hInv1 hnm1' _ _ hca
          obtain ⟨s1, hs1a, hs1b, hs1get, hs1meas⟩ := hex rfl
          split at h
          · cases h
          · rename_i ns hws
            have hns : ns = s1 := by
              rw [hed] at hs1get
              have hws2 : t2.whenScheduled (.task task) = some s1 := hs1get
              rw [hws] at hws2
              exact Option.some.inj hws2
            have hm1 := hmeas1 start
            have hm2 := hs1meas start
            have hsle : s1 ≤ entry.start := by
              have := hs1b entry.stop rfl
              omega
            split at h
            · cases h
              exact ⟨hInv2, by omega, fun _ => by omega⟩
            · obtain ⟨r1, r2, r3⟩ := (ih t2 hInv2).1 b t' h
              exact ⟨r1, by omega, fun hb => by have := r3 hb; omega⟩
    · intro m' h
      rw [importancePass] at h
      split at h
      · cases h
      · rename_i entry t1 hun
        obtain ⟨hInv1, hed, hPent, hses, hnm1, hmeas1⟩ :=
          unschedule_sound (PayloadP start) t (.task task) hInv entry t1 hun
        obtain ⟨hb1, hb2, hb3⟩ := hPent task hed
        have hdd : itemEq entry.data entry.data = true := by
          rw [hed]
          simp [itemEq]
        have hPca : ∀ s', start ≤ s' →
            (∀ m, (some entry.stop : Option Int) = some m → s' + task.duration ≤ m) →
            PayloadP start s' (s' + task.duration) entry.data := by
          intro s' hss hme tk2 heq
          rw [hed] at heq
          injection heq with heq'
          subst heq'
          refine ⟨hss, rfl, ?_⟩
          have := hme entry.stop rfl
          omega
        have hnm1' : ∀ kv ∈ t1.dataMap, itemEq kv.1.2 entry.data = false := by
          rw [hed]
          exact hnm1
        split at h
        · rename_i m0 hca
          injection h with h'
          subst h'
          exact closeAfter_no_assert_msgs t1 start task.duration (some entry.stop)
            entry.data (by simp only [Option.all, decide_eq_true_eq]; omega) m0 hca
        · cases h
        · rename_i t2 hca
          obtain ⟨hInv2, hex⟩ := closeAfter_sound (PayloadP start) start task.duration
            (some entry.stop) entry.data (by omega) hPca hdd t1 hInv1 hnm1' _ _ hca
          split at h
          · cases h
          · split at h
            · cases h
            · exact (ih t2 hInv2).2 m' h

theorem myrjamPass_sound (start : Int) :
    ∀ (l : List (Int × Int × RcItem)) (t : ScheduleTree), t.Inv (PayloadP start) →
      (∀ t', myrjamPass start l t = .ok t' → t'.Inv (PayloadP start)) ∧
      (∀ m', myrjamPass start l t = .crash m' →
        m' ≠ ScheduleTree.closeBeforeAssertMsg ∧ m' ≠ ScheduleTree.closeAfterAssertMsg ∧
        m' ≠ phase2FuelMsg) := by
  intro l
  induction l with
  | nil =>
    intro t hInv
    constructor
    · intro t' h
      rw [myrjamPass] at h
      cases h
      exact hInv
    · intro m' h
      rw [myrjamPass] at h
      cases h
  | cons hd rest ih =>
    obtain ⟨a1, a2, dd⟩ := hd
    intro t hInv
    constructor
    · intro t' h
      rw [myrjamPass] at h
      split at h
      · exact (ih t hInv).1 t' h
      · rename_i task hdd2
        split at h
        · cases h
        · rename_i entry t1 hun
          obtain ⟨hInv1, hed, hPent, hses, hnm1, hmeas1⟩ :=
            unschedule_sound (PayloadP start) t dd.2 hInv entry t1 hun
          have hed' : entry.data = .task task := by rw [hed, hdd2]
          obtain ⟨hb1, hb2, hb3⟩ := hPent task hed'
          have hdd : itemEq entry.data entry.data = true := by
            rw [hed']
            simp [itemEq]
          have hPca : ∀ s', start ≤ s' →
              (∀ m, (some entry.stop : Option Int) = some m → s' + task.duration ≤ m) →
              PayloadP start s' (s' + task.duration) entry.data := by
            intro s' hss hme tk2 heq
            rw [hed'] at heq
            injection heq with heq'
            subst heq'
            refine ⟨hss, rfl, ?_⟩
            have := hme entry.stop rfl
            omega
          have hnm1' : ∀ kv ∈ t1.dataMap, itemEq kv.1.2 entry.data = false := by
            rw [hed]
            exact hnm1
          split at h
          · cases h
          · cases h
          · rename_i t2 hca
            obtain ⟨hInv2, _⟩ := closeAfter_sound (PayloadP start) start task.duration
              (some entry.stop) entry.data (by omega) hPca hdd t1 hInv1 hnm1' _ _ hca
            exact (ih t2 hInv2).1 t' h
    · intro m' h
      rw [myrjamPass] at h
      split at h
      · exact (ih t hInv).2 m' h
      · rename_i task hdd2
        split at h
        · cases h
        · rename_i entry t1 hun
          obtain ⟨hInv1, hed, hPent, hses, hnm1, hmeas1⟩ :=
            unschedule_sound (PayloadP start) t dd.2 hInv entry t1 hun
          have hed' : entry.data = .task task := by rw [hed, hdd2]
          obtain ⟨hb1, hb2, hb3⟩ := hPent task hed'
          have hdd : itemEq entry.data entry.data = true := by
            rw [hed']
            simp [itemEq]
          have hPca : ∀ s', start ≤ s' →
              (∀ m, (some entry.stop : Option Int) = some m → s' + task.duration ≤ m) →
              PayloadP start s' (s' + task.duration) entry.data := by
            intro s' hss hme tk2 heq
            rw [hed'] at heq
            injection heq with heq'
            subst heq'
            refine ⟨hss, rfl, ?_⟩
            have := hme entry.stop rfl
            omega
          have hnm1' : ∀ kv ∈ t1.dataMap, itemEq kv.1.2 entry.data = false := by
            rw [hed]
            exact hnm1
          split at h
          · rename_i m0 hca
            injection h with h'
            subst h'
            exact closeAfter_no_assert_msgs t1 start task.duration (some entry.stop)
              entry.data (by simp only [Option.all, decide_eq_true_eq]; omega) m0 hca
          · cases h
          · rename_i t2 hca
            obtain ⟨hInv2, _⟩ := closeAfter_sound (PayloadP start) start task.duration
              (some entry.stop) entry.data (by omega) hPca hdd t1 hInv1 hnm1' _ _ hca
            exact (ih t2 hInv2).2 m' h

theorem phase2Importance_sound (start : Int) (l : List Task) :
    ∀ (fuel : Nat) (t : ScheduleTree), t.Inv (PayloadP start) →
      (∀ t', phase2Importance start l fuel t = .ok t' → t'.Inv (PayloadP start)) ∧
      (∀ m', phase2Importance start l fuel t = .crash m' →
        m' ≠ ScheduleTree.closeBeforeAssertMsg ∧ m' ≠ ScheduleTree.closeAfterAssertMsg ∧
        (m' = phase2FuelMsg → fuel ≤ t.startsMeasure start)) := by
  intro fuel
  induction fuel with
  | zero =>
    intro t hInv
    constructor
    · intro t' h
      rw [phase2Importance] at h
      cases h
    · intro m' h
      rw [phase2Importance] at h
      injection h with h'
      subst h'
      exact ⟨by decide, by decide, fun _ => by omega⟩
  | succ fuel ihf =>
    intro t hInv
    have hpass := importancePass_sound start l t hInv
    constructor
    · intro t' h
      rw [phase2Importance] at h
      split at h
      · rename_i t1 hps
        cases h
        exact (hpass.1 false _ hps).1
      · rename_i t1 hps
        obtain ⟨i1, i2, i3⟩ := hpass.1 true t1 hps
        exact (ihf t1 i1).1 t' h
      · cases h
      · cases h
    · intro m' h
      rw [phase2Importance] at h
      split at h
      · cases h
      · rename_i t1 hps
        obtain ⟨i1, i2, i3⟩ := hpass.1 true t1 hps
        obtain ⟨c1, c2, c3⟩ := (ihf t1 i1).2 m' h
        refine ⟨c1, c2, ?_⟩
        intro hm
        have hfl := c3 hm
        have hlt := i3 rfl
        omega
      · cases h
      · rename_i m0 hps
        injection h with h'
        subst h'
        obtain ⟨c1, c2, c3⟩ := hpass.2 m0 hps
        exact ⟨c1, c2, fun hm => absurd hm c3⟩

theorem importanceStrategy_sound (t : ScheduleTree) (start : Int) (tasks : List Task)
    (hInv : t.Inv (PayloadP start)) (hdur : ∀ tk ∈ tasks, 0 ≤ tk.duration) :
    (∀ t', scheduleAccordingToImportance t start tasks = .ok t' →
      t'.Inv (PayloadP start)) ∧
    (∀ m', scheduleAccordingToImportance t start tasks = .crash m' →
      m' ≠ ScheduleTree.closeBeforeAssertMsg ∧ m' ≠ ScheduleTree.closeAfterAssertMsg ∧
      m' ≠ phase2FuelMsg) := by
  have hdur' : ∀ tk ∈ UnnamedTimeSegment.stableSortBy (importanceLe start) tasks,
      0 ≤ tk.duration :=
    fun tk htk => hdur tk ((stableSortBy_perm _ tasks).mem_iff.mp htk)
  have hph := phase1_sound start (UnnamedTimeSegment.stableSortBy (importanceLe start) tasks)
    t hInv hdur'
  constructor
  · intro t' h
    rw [scheduleAccordingToImportance] at h
    split at h
    · rename_i t1 hps
      have hInv1 := hph.1 t1 hps
      split at h
      · cases h
        exact hInv1
      · exact (phase2Importance_sound start _ _ t1 hInv1).1 t' h
    · cases h
    · cases h
  · intro m' h
    rw [scheduleAccordingToImportance] at h
    split at h
    · rename_i t1 hps
      have hInv1 := hph.1 t1 hps
      split at h
      · cases h
      · obtain ⟨c1, c2, c3⟩ := (phase2Importance_sound start _ _ t1 hInv1).2 m' h
        refine ⟨c1, c2, ?_⟩
        intro hm
        have := c3 hm
        omega
    · cases h
    · rename_i m0 hps
      injection h with h'
      subst h'
      exact hph.2 m0 hps

theorem myrjamStrategy_sound (t : ScheduleTree) (start : Int) (tasks : List Task)
    (hInv : t.Inv (PayloadP start)) (hdur : ∀ tk ∈ tasks, 0 ≤ tk.duration) :
    (∀ t', scheduleAccordingToMyrjam t start tasks = .ok t' → t'.Inv (PayloadP start)) ∧
    (∀ m', scheduleAccordingToMyrjam t start tasks = .crash m' →
      m' ≠ ScheduleTree.closeBeforeAssertMsg ∧ m' ≠ ScheduleTree.closeAfterAssertMsg ∧
      m' ≠ phase2FuelMsg) := by
  have hdur' : ∀ tk ∈ UnnamedTimeSegment.stableSortBy myrjamLe tasks, 0 ≤ tk.duration :=
    fun tk htk => hdur tk ((stableSortBy_perm _ tasks).mem_iff.mp htk)
  have hph := phase1_sound start (UnnamedTimeSegment.stableSortBy myrjamLe tasks) t hInv hdur'
  constructor
  · intro t' h
    rw [scheduleAccordingToMyrjam] at h
    split at h
    · rename_i t1 hps
      have hInv1 := hph.1 t1 hps
      exact (myrjamPass_sound start t1.iterEntries t1 hInv1).1 t' h
    · cases h
    · cases h
  · intro m' h
    rw [scheduleAccordingToMyrjam] at h
    split at h
    · rename_i t1 hps
      have hInv1 := hph.1 t1 hps
      exact (myrjamPass_sound start t1.iterEntries t1 hInv1).2 m' h
    · cases h
    · rename_i m0 hps
      injection h with h'
      subst h'
      exact hph.2 m0 hps

theorem Inv_new (P : Int → Int → Item → Prop) : ScheduleTree.new.Inv P := by
  refine ⟨trivial, ?_, ?_⟩
  · intro kv hkv
    simp [ScheduleTree.new] at hkv
  · show ([] : List (RcItem × Int)).Pairwise _
    exact List.Pairwise.nil

/-! ## C10 — the insertion assertions are unreachable from the strategies -/

/-- **C10.** `schedule_close_before` asserts `min_start + duration <= end` and
`schedule_close_after` asserts `start + duration <= max_end`; under the tree
invariant from earliest-start `start` and non-negative durations, no strategy
run ever panics with either assertion message: phase 1's guard
`deadline >= start + duration` discharges the close-before assertion, and the
invariant's leaf shape (`stop = start + duration`, leaf start at or after
`start`) discharges the close-after assertion in phase 2. -/
theorem c10_asserts_unreachable (strat : SchedulingStrategy) (t : ScheduleTree)
    (start : Int) (tasks : List Task) (hInv : t.Inv (PayloadP start))
    (hdur : ∀ tk ∈ tasks, 0 ≤ tk.duration) :
    runStrategy strat t start tasks ≠ .crash ScheduleTree.closeBeforeAssertMsg ∧
    runStrategy strat t start tasks ≠ .crash ScheduleTree.closeAfterAssertMsg := by
  cases strat with
  | importance =>
    constructor
    · intro h
      rw [runStrategy] at h
      exact ((importanceStrategy_sound t start tasks hInv hdur).2 _ h).1 rfl
    · intro h
      rw [runStrategy] at h
      exact ((importanceStrategy_sound t start tasks hInv hdur).2 _ h).2.1 rfl
  | urgency =>
    constructor
    · intro h
      rw [runStrategy] at h
      exact ((myrjamStrategy_sound t start tasks hInv hdur).2 _ h).1 rfl
    · intro h
      rw [runStrategy] at h
      exact ((myrjamStrategy_sound t start tasks hInv hdur).2 _ h).2.1 rfl

/-- Witness for C10 on a concrete strategy run from a fresh tree. -/
theorem c10_asserts_unreachable_witness :
    runStrategy .urgency ScheduleTree.new 0 [exC9t] ≠
      .crash ScheduleTree.closeBeforeAssertMsg ∧
    runStrategy .urgency ScheduleTree.new 0 [exC9t] ≠
      .crash ScheduleTree.closeAfterAssertMsg :=
  c10_asserts_unreachable .urgency ScheduleTree.new 0 [exC9t] (Inv_new _) (by decide)

/-! ## C5 — phase 2 of the importance strategy terminates -/

/-- **C5.** The `while changed` loop of the importance strategy's second phase
is modelled with fuel one more than the measure `Σ (leaf start − start)`; the
fuel-exhaustion crash — standing in for non-termination of the source's
unbounded loop — is unreachable, because a pass that reports a change strictly
decreases the measure and a pass that reports no change ends the loop. -/
theorem c5_phase2_terminates (t : ScheduleTree) (start : Int) (tasks : List Task)
    (hInv : t.Inv (PayloadP start)) (hdur : ∀ tk ∈ tasks, 0 ≤ tk.duration) :
    scheduleAccordingToImportance t start tasks ≠ .crash phase2FuelMsg := by
  intro h
  exact ((importanceStrategy_sound t start tasks hInv hdur).2 _ h).2.2 rfl

/-- Witness for C5 on a concrete importance run from a fresh tree. -/
theorem c5_phase2_terminates_witness :
    scheduleAccordingToImportance ScheduleTree.new 0 [exC9t] ≠ .crash phase2FuelMsg :=
  c5_phase2_terminates ScheduleTree.new 0 [exC9t] (Inv_new _) (by decide)

theorem shift_bounds (p : Int) (hp : 0 < p) (diff : Int) :
    0 ≤ diff - UnnamedTimeSegment.shiftQuotient diff p * p ∧
    diff - UnnamedTimeSegment.shiftQuotient diff p * p ≤ p := by
  have hmod := Int.tdiv_add_tmod diff p
  rw [UnnamedTimeSegment.shiftQuotient]
  split
  · rename_i hd
    have hneg : Int.tmod (-diff) p = - Int.tmod diff p := by
      rw [Int.tmod_def, Int.tmod_def, Int.neg_tdiv]
      ring
    have h1 : 0 ≤ Int.tmod (-diff) p := Int.tmod_nonneg p (by omega)
    have h2 : Int.tmod (-diff) p < p := Int.tmod_lt_of_pos _ hp
    have h3 : (Int.tdiv diff p - 1) * p = p * Int.tdiv diff p - p := by ring
    omega
  · rename_i hd
    have h1 : 0 ≤ Int.tmod diff p := Int.tmod_nonneg p (by omega)
    have h2 : Int.tmod diff p < p := Int.tmod_lt_of_pos _ hp
    have h3 : Int.tdiv diff p * p = p * Int.tdiv diff p := by ring
    omega

theorem withStart_ranges_nonneg (seg : UnnamedTimeSegment) (start : Int)
    (hp : 0 < seg.period) (hr : ∀ r ∈ seg.ranges, r.1 ≤ r.2) :
    ∀ r ∈ (seg.withStart start).ranges, r.1 ≤ r.2 := by
  intro r hmem
  rw [UnnamedTimeSegment.withStart] at hmem
  dsimp only at hmem
  have hmem2 := (stableSortBy_perm (fun a b : TRange => decide (a.1 ≤ b.1)) _).mem_iff.mp hmem
  rw [List.mem_flatMap] at hmem2
  obtain ⟨r1, hr1mem, hr1⟩ := hmem2
  have hr1mem2 :=
    (stableSortBy_perm (fun a b : TRange => decide (a.1 ≤ b.1)) _).mem_iff.mp hr1mem
  rw [List.mem_map] at hr1mem2
  obtain ⟨r0, hr0mem, hr0⟩ := hr1mem2
  have hw : r0.1 ≤ r0.2 := hr r0 hr0mem
  have hsb := shift_bounds seg.period hp (r0.1 - start)
  subst hr0
  dsimp only at hr1
  split at hr1
  · rename_i hc
    rw [List.mem_singleton] at hr1
    subst hr1
    dsimp only
    omega
  · rename_i hc
    rw [List.mem_cons, List.mem_singleton] at hr1
    rcases hr1 with he | he
    · subst he
      dsimp only
      omega
    · subst he
      dsimp only
      omega

theorem gapsBetween_nonneg :
    ∀ l : List TRange, ∀ r ∈ UnnamedTimeSegment.gapsBetween l, r.1 ≤ r.2 := by
  intro l
  induction l with
  | nil =>
    intro r hr
    simp [UnnamedTimeSegment.gapsBetween] at hr
  | cons r1 tail ih =>
    intro r hr
    cases tail with
    | nil => simp [UnnamedTimeSegment.gapsBetween] at hr
    | cons r2 rest =>
      rw [UnnamedTimeSegment.gapsBetween] at hr
      rcases List.mem_append.mp hr with h1 | h1
      · split at h1
        · rename_i hc
          rw [List.mem_singleton] at h1
          subst h1
          dsimp only
          omega
        · simp at h1
      · exact ih r h1

theorem inverse_ranges_nonneg (seg : UnnamedTimeSegment) (hp : 0 ≤ seg.period) :
    ∀ r ∈ seg.inverse.ranges, r.1 ≤ r.2 := by
  intro r hr
  rw [UnnamedTimeSegment.inverse.eq_def] at hr
  split at hr
  · dsimp only at hr
    rw [List.mem_singleton] at hr
    subst hr
    dsimp only
    omega
  · rename_i r0 rest heq
    dsimp only at hr
    rcases List.mem_append.mp hr with h1 | h1
    · rcases List.mem_append.mp h1 with h2 | h2
      · split at h2
        · rename_i hc
          rw [List.mem_singleton] at h2
          subst h2
          dsimp only
          omega
        · simp at h2
      · exact gapsBetween_nonneg _ r h2
    · split at h1
      · rename_i hc
        rw [List.mem_singleton] at h1
        subst h1
        dsimp only
        omega
      · simp at h1

theorem generateInner_nonneg (period endT : Int) :
    ∀ (ranges accRev : List TRange),
      (∀ r ∈ ranges, r.1 ≤ r.2) → (∀ a ∈ accRev, a.1 ≤ a.2) →
      (∀ r ∈ (UnnamedTimeSegment.generateInner period endT ranges accRev).1, r.1 ≤ r.2) ∧
      (∀ a ∈ (UnnamedTimeSegment.generateInner period endT ranges accRev).2, a.1 ≤ a.2) := by
  intro ranges
  induction ranges with
  | nil =>
    intro accRev h1 h2
    rw [UnnamedTimeSegment.generateInner]
    exact ⟨by simp, h2⟩
  | cons c rest ihr =>
    intro accRev h1 h2
    have hc : c.1 ≤ c.2 := h1 c (List.mem_cons_self _ _)
    have hrest : ∀ r ∈ rest, r.1 ≤ r.2 := fun r hr => h1 r (List.mem_cons_of_mem _ hr)
    rw [UnnamedTimeSegment.generateInner.eq_def]
    dsimp only
    split
    · exact ⟨h1, h2⟩
    · rename_i hbreak
      split
      · rename_i last accTail
        have hlast : last.1 ≤ last.2 := h2 last (List.mem_cons_self _ _)
        have htail : ∀ a ∈ accTail, a.1 ≤ a.2 := fun a ha => h2 a (List.mem_cons_of_mem _ ha)
        split
        · rename_i hco
          have hacc : ∀ a ∈ (last.1, c.2) :: accTail, a.1 ≤ a.2 := by
            intro a ha
            rcases List.mem_cons.mp ha with he | he
            · subst he
              dsimp only
              omega
            · exact htail a he
          obtain ⟨i1, i2⟩ := ihr ((last.1, c.2) :: accTail) hrest hacc
          dsimp only
          refine ⟨?_, i2⟩
          intro r hrm
          rcases List.mem_cons.mp hrm with he | he
          · subst he
            dsimp only
            omega
          · exact i1 r he
        · split
          · refine ⟨h1, ?_⟩
            intro a ham
            rcases List.mem_cons.mp ham with he | he
            · subst he
              dsimp only
              omega
            · exact h2 a he
          · rename_i hnt
            have hacc : ∀ a ∈ (c.1, c.2) :: last :: accTail, a.1 ≤ a.2 := by
              intro a ha
              rcases List.mem_cons.mp ha with he | he
              · subst he
                dsimp only
                omega
              · exact h2 a he
            obtain ⟨i1, i2⟩ := ihr ((c.1, c.2) :: last :: accTail) hrest hacc
            dsimp only
            refine ⟨?_, i2⟩
            intro r hrm
            rcases List.mem_cons.mp hrm with he | he
            · subst he
              dsimp only
              omega
            · exact i1 r he
      · split
        · refine ⟨h1, ?_⟩
          intro a ham
          rw [List.mem_singleton] at ham
          subst ham
          dsimp only
          omega
        · rename_i hnt
          have hacc : ∀ a ∈ [(c.1, c.2)], a.1 ≤ a.2 := by
            intro a ha
            rw [List.mem_singleton] at ha
            subst ha
            dsimp only
            omega
          obtain ⟨i1, i2⟩ := ihr [(c.1, c.2)] hrest hacc
          dsimp only
          refine ⟨?_, i2⟩
          intro r hrm
          rcases List.mem_cons.mp hrm with he | he
          · subst he
            dsimp only
            omega
          · exact i1 r he

theorem generateOuter_nonneg (period endT : Int) :
    ∀ (fuel : Nat) (ps : Int) (ranges accRev : List TRange),
      (∀ r ∈ ranges, r.1 ≤ r.2) → (∀ a ∈ accRev, a.1 ≤ a.2) →
      ∀ r ∈ UnnamedTimeSegment.generateOuter period endT fuel ps ranges accRev,
        r.1 ≤ r.2 := by
  intro fuel
  induction fuel with
  | zero =>
    intro ps ranges accRev h1 h2 r hr
    rw [UnnamedTimeSegment.generateOuter] at hr
    rw [List.mem_reverse] at hr
    exact h2 r hr
  | succ fuel ihf =>
    intro ps ranges accRev h1 h2 r hr
    rw [UnnamedTimeSegment.generateOuter] at hr
    split at hr
    · obtain ⟨i1, i2⟩ := generateInner_nonneg period endT ranges accRev h1 h2
      rcases hgi : UnnamedTimeSegment.generateInner period endT ranges accRev
        with ⟨pr2, acc2⟩
      rw [hgi] at hr
      dsimp only at hr
      rw [hgi] at i1 i2
      exact ihf _ pr2 acc2 i1 i2 r hr
    · rw [List.mem_reverse] at hr
      exact h2 r hr

theorem generateRanges_nonneg (seg : UnnamedTimeSegment) (start endT : Int)
    (hp : 0 < seg.period) (hr : ∀ r ∈ seg.ranges, r.1 ≤ r.2) :
    ∀ r ∈ seg.generateRanges start endT, r.1 ≤ r.2 := by
  rw [UnnamedTimeSegment.generateRanges]
  exact generateOuter_nonneg _ _ _ _ _ _ (withStart_ranges_nonneg seg start hp hr) (by simp)

theorem primeTree_sound (P : Int → Int → Item → Prop) (hPn : ∀ s e, P s e .nothing) :
    ∀ (ranges : List TRange) (t : ScheduleTree), t.Inv P →
      (∀ r ∈ ranges, r.1 ≤ r.2) →
      ∀ t', primeTree ranges t = .ok t' → t'.Inv P := by
  intro ranges
  induction ranges with
  | nil =>
    intro t hInv _ t' h
    rw [primeTree] at h
    cases h
    exact hInv
  | cons r rest ih =>
    intro t hInv hr t' h
    rw [primeTree] at h
    split at h
    · cases h
    · rename_i b t1 hex
      have hInv1 := scheduleExact_sound P t r.1 (r.2 - r.1) .nothing
        (by have := hr r (List.mem_cons_self _ _); omega) (hPn _ _) hInv _ _ hex
      exact ih t1 hInv1 (fun r2 hr2 => hr r2 (List.mem_cons_of_mem _ hr2)) t' h

theorem pairwise_filterMap_of {α β : Type} (f : α → Option β) {R : β → β → Prop}
    {S : α → α → Prop} :
    ∀ l : List α, l.Pairwise S →
      (∀ a b x y, S a b → f a = some x → f b = some y → R x y) →
      (l.filterMap f).Pairwise R := by
  intro l
  induction l with
  | nil =>
    intro _ _
    simp
  | cons a l ihl =>
    intro hp hcomp
    obtain ⟨hhead, htail⟩ := List.pairwise_cons.mp hp
    rw [List.filterMap_cons]
    rcases hfa : f a with _ | x
    · simp only [hfa]
      exact ihl htail hcomp
    · simp only [hfa]
      rw [List.pairwise_cons]
      refine ⟨?_, ihl htail hcomp⟩
      intro y hy
      rw [List.mem_filterMap] at hy
      obtain ⟨b, hb, hfb⟩ := hy
      exact hcomp a b x y (hhead b hb) hfa hfb

theorem fromTree_sound (start : Int) (t : ScheduleTree)
    (hwf : t.Wf (PayloadP start)) :
    entriesWithinBounds start (fromTree t) ∧ pairwiseNonOverlap (fromTree t) := by
  rw [fromTree]
  cases hroot : t.root with
  | none =>
    have hIter : t.iterEntries = [] := by simp [ScheduleTree.iterEntries, hroot]
    rw [hIter]
    constructor
    · intro e he
      simp at he
    · show List.Pairwise _ _
      simp
  | some n =>
    obtain ⟨hwfn, _⟩ := Wf_root_some _ t n hwf hroot
    obtain ⟨hmem, hpair, _⟩ := wfP_entries _ n hwfn
    have hIter : t.iterEntries = n.entries := by simp [ScheduleTree.iterEntries, hroot]
    rw [hIter]
    constructor
    · intro e he
      rw [List.mem_filterMap] at he
      obtain ⟨a, ha, hfa⟩ := he
      obtain ⟨q1, q2, q3, q4⟩ := hmem a ha
      rcases hx : a.2.2.2 with tk | _
      · rw [hx] at hfa
        dsimp only at hfa
        injection hfa with hfa'
        subst hfa'
        obtain ⟨p1, p2, p3⟩ := q4 tk hx
        exact ⟨p1, by dsimp only; omega⟩
      · rw [hx] at hfa
        cases hfa
    · have hpair2 : n.entries.Pairwise (fun a b =>
          ∀ x y : Scheduled,
            (match a.2.2.2 with
              | Item.task tk => some (⟨tk, a.1⟩ : Scheduled)
              | Item.nothing => none) = some x →
            (match b.2.2.2 with
              | Item.task tk => some (⟨tk, b.1⟩ : Scheduled)
              | Item.nothing => none) = some y →
            intervalsDisjoint x.when (x.when + x.task.duration) y.when
              (y.when + y.task.duration)) := by
        refine List.Pairwise.imp_of_mem ?_ hpair
        intro a b ha hb hS x y hxa hyb
        rcases hxA : a.2.2.2 with tka | _
        · rw [hxA] at hxa
          dsimp only at hxa
          injection hxa with hx'
          subst hx'
          rcases hxB : b.2.2.2 with tkb | _
          · rw [hxB] at hyb
            dsimp only at hyb
            injection hyb with hy'
            subst hy'
            obtain ⟨pa1, pa2, pa3⟩ := (hmem a ha).2.2.2 tka hxA
            have hq2 := (hmem a ha).2.1
            have hqb := (hmem b hb).2.1
            rw [intervalsDisjoint]
            dsimp only
            omega
          · rw [hxB] at hyb
            cases hyb
        · rw [hxA] at hxa
          cases hxa
      show List.Pairwise _ _
      exact pairwise_filterMap_of _ n.entries hpair2 (fun a b x y hS hfa hfb => hS x y hfa hfb)

/-! ## C1 — bounds and non-overlap of returned schedules -/

/-- **C1 (counterexample).** At the `Schedule::schedule` level the non-overlap
part of the claim fails: two one-task segment groups over the same *anytime*
segment each schedule their task at instant 0, and the merged schedule contains
two overlapping entries. -/
theorem c1_schedule_overlap_counterexample :
    schedule 0 [(exAnytime, [exC1a]), (exAnytime, [exC1b])] .urgency =
      .ok [⟨exC1b, 0⟩, ⟨exC1a, 0⟩] ∧
    ¬ pairwiseNonOverlap [⟨exC1b, 0⟩, ⟨exC1a, 0⟩] := by
  constructor
  · have h1 : scheduleWithinSegment 0 [exC1a] exAnytime .urgency = .ok [⟨exC1a, 0⟩] := by
      rfl
    have h2 : scheduleWithinSegment 0 [exC1b] exAnytime .urgency = .ok [⟨exC1b, 0⟩] := by
      rfl
    rw [schedule]
    simp only [List.map_cons, List.map_nil]
    rw [h1, h2]
    simp only [List.foldl_cons, List.foldl_nil, combineOutcome]
    rw [mergeSchedules, mergeSchedules]
    norm_num
    rw [mergeSchedules]
  · intro hnp
    have h2 := (List.pairwise_cons.mp hnp).1 ⟨exC1a, 0⟩ (by simp)
    simp only [intervalsDisjoint, exC1a, exC1b] at h2
    omega

/-- **C1 (amended).** For a single `schedule_within_segment` call with a
positive-period segment and non-negative task durations, every returned entry
starts at or after `start` and ends by its task's deadline, and the entries of
this one call are pairwise non-overlapping.  (Across segment groups,
`Schedule::schedule` merely merges the per-segment schedules and entries can
overlap — see the counterexample.) -/
theorem c1_schedule_bounds_amended (start : Int) (tasks : List Task)
    (seg : UnnamedTimeSegment) (strat : SchedulingStrategy) (res : List Scheduled)
    (hp : 0 < seg.period) (hdur : ∀ tk ∈ tasks, 0 ≤ tk.duration)
    (h : scheduleWithinSegment start tasks seg strat = .ok res) :
    entriesWithinBounds start res ∧ pairwiseNonOverlap res := by
  rw [scheduleWithinSegment] at h
  split at h
  · cases h
    constructor
    · intro e he
      simp at he
    · exact List.Pairwise.nil
  · split at h
    · cases h
    · rename_i lastD hmax
      split at h
      · cases h
      · rename_i tree hprime
        have hrn : ∀ r ∈ seg.inverse.generateRanges start lastD, r.1 ≤ r.2 := by
          apply generateRanges_nonneg
          · rw [inverse_period]
            exact hp
          · exact inverse_ranges_nonneg seg (by omega)
        have hInvTree := primeTree_sound (PayloadP start) (fun s e tk heq => nomatch heq)
          _ ScheduleTree.new (Inv_new _) hrn tree hprime
        split at h
        · rename_i t1 hrun
          cases h
          have hInv1 : t1.Inv (PayloadP start) := by
            cases strat with
            | importance =>
              rw [runStrategy] at hrun
              exact (importanceStrategy_sound tree start tasks hInvTree hdur).1 t1 hrun
            | urgency =>
              rw [runStrategy] at hrun
              exact (myrjamStrategy_sound tree start tasks hInvTree hdur).1 t1 hrun
          exact fromTree_sound start t1 hInv1.1
        · cases h
        · cases h

/-- Witness for C1 (amended) on a concrete successful run. -/
theorem c1_schedule_bounds_amended_witness :
    entriesWithinBounds 0 [⟨exC9t, 0⟩] ∧ pairwiseNonOverlap [⟨exC9t, 0⟩] :=
  c1_schedule_bounds_amended 0 [exC9t] exAnytime .urgency [⟨exC9t, 0⟩]
    (by decide) (by decide) (by rfl)

end Eva
